import Mathlib

/-!
Verification of the write-allowlist gate of `src/writeAccess.ts`
(google-docs-mcp). The module guards every write-capable Drive operation
behind a configured allowlist of file/folder IDs: a target is allowed when
it is allowlisted itself or has an allowlisted ancestor, discovered by a
breadth-first search over parent links fetched from the remote store and
memoized in a process-wide cache.

The embedding models the remote Drive store as a finite association list
from file IDs to responses (an ID absent from the store answers with a
404 "not found" failure, matching the remote API).  The mutable module
state (`allowlistState.ids`, `parentCache`, `rootResolved`) is threaded
explicitly as a `GateState`; remote lookups are recorded in a `lookups`
log so that "no remote call is made" claims are statable.  The BFS loop
is given explicit fuel; `suffFuel` computes a bound proved sufficient, so
the `none` (out-of-fuel) result never occurs.
-/

namespace WriteAccess

/-- Association-list lookup keyed by string equality; models both
`Map.get` of the parent cache and the remote store's key lookup. -/
def alistGet {β : Type} : List (String × β) → String → Option β
  | [], _ => none
  | (k, v) :: rest, key => if key = k then some v else alistGet rest key

/-- Models `Map.set`: the new binding shadows any previous one. -/
def mapSet {β : Type} (m : List (String × β)) (k : String) (v : β) :
    List (String × β) :=
  (k, v) :: m

/-- A remote node: canonical ID plus direct parent IDs
(`FileNode` in `writeAccess.ts`). -/
structure FileNode where
  id : String
  parents : List String
deriving DecidableEq

/-- One remote answer for a `drive.files.get` call: a success carries the
optional `id` and `parents` fields of the response; `permissionDenied`
models an HTTP 403 error; `failure` models any error that is neither 404
nor 403, carrying the remote error message. -/
inductive DriveResp where
  | ok (respId : Option String) (respParents : Option (List String))
  | permissionDenied
  | failure (message : String)
deriving DecidableEq

/-- The remote hierarchy: a finite table of responses.  An ID with no
entry answers 404 (file not found). -/
abbrev Store : Type := List (String × DriveResp)

/-- Look up a remote response. -/
def storeGet (store : Store) (fileId : String) : Option DriveResp :=
  alistGet store fileId

/-- The module-level mutable state of `writeAccess.ts`: the four fields of
`allowlistState` (`ids` is mutable via root normalization), the
`parentCache` map, the `rootResolved` flag, and a log of the remote
lookups issued so far (newest last). -/
structure GateState where
  enabled : Bool
  ids : List String
  sources : List String
  error : Option String
  rootResolved : Bool
  cache : List (String × FileNode)
  lookups : List String
deriving DecidableEq

/-- JavaScript `a || b` on an optional string: the fallback is used when
the field is missing or the empty string (falsy). -/
def jsOr (a : Option String) (b : String) : String :=
  match a with
  | some s => if s = "" then b else s
  | none => b

/-- Message for a 404 failure, from `getFileNode`. -/
def notFoundMsg (fileId : String) : String :=
  "Cannot verify allowlist: file not found (ID: " ++ fileId ++ ")."

/-- Message for a 403 failure, from `getFileNode`. -/
def permissionMsg (fileId : String) : String :=
  "Cannot verify allowlist: permission denied for file (ID: " ++ fileId ++ ")."

/-- Message for any other remote failure, from `getFileNode`; an empty
remote message falls back to `"Unknown error"` (the `||` chain). -/
def otherFailureMsg (fileId message : String) : String :=
  "Cannot verify allowlist for file " ++ fileId ++ ": " ++
    (if message = "" then "Unknown error" else message)

/-- `getFileNode` of `writeAccess.ts`: consult the cache; on a miss issue
one remote lookup (recorded in the log).  On success build the node
(`id: response.data.id || fileId`, `parents: response.data.parents || []`),
cache it under the requested ID and — when different and truthy — under
the canonical ID, and return it.  On failure return the classified error
message and leave the cache unchanged. -/
def getFileNode (store : Store) (fileId : String) (st : GateState) :
    Except String FileNode × GateState :=
  match alistGet st.cache fileId with
  | some cached => (.ok cached, st)
  | none =>
    let st1 := { st with lookups := st.lookups ++ [fileId] }
    match storeGet store fileId with
    | some (.ok respId respParents) =>
      let node : FileNode := { id := jsOr respId fileId, parents := respParents.getD [] }
      let c1 := mapSet st1.cache fileId node
      let c2 := if node.id ≠ "" ∧ node.id ≠ fileId then mapSet c1 node.id node else c1
      (.ok node, { st1 with cache := c2 })
    | some .permissionDenied => (.error (permissionMsg fileId), st1)
    | some (.failure message) => (.error (otherFailureMsg fileId message), st1)
    | none => (.error (notFoundMsg fileId), st1)

/-- Set-style insert on the ID list (`Set.add`): append unless present. -/
def addId (l : List String) (x : String) : List String :=
  if x ∈ l then l else l ++ [x]

/-- `ensureRootResolved`: once per process, when the allowlist contains
the literal alias `"root"`, fetch its node and add the canonical root ID
to the ID set when it is truthy and differs from `"root"`. -/
def ensureRootResolved (store : Store) (st : GateState) :
    Except String Unit × GateState :=
  if st.rootResolved ∨ ¬ "root" ∈ st.ids then (.ok (), st)
  else
    match getFileNode store "root" st with
    | (.error e, st1) => (.error e, st1)
    | (.ok rootNode, st1) =>
      let st2 :=
        if rootNode.id ≠ "" ∧ rootNode.id ≠ "root" then
          { st1 with ids := addId st1.ids rootNode.id }
        else st1
      (.ok (), { st2 with rootResolved := true })

/-- The body of `isIdWithinAllowlist`'s `while` loop, with explicit fuel:
pop the head of the queue; skip falsy or already-seen IDs; accept when the
popped ID — or, after fetching, its canonical ID — is allowlisted;
otherwise enqueue the unseen parents.  `none` means the fuel ran out
(shown impossible for the fuel chosen by `isIdWithinAllowlist`). -/
def bfsAux (store : Store) (allowIds : List String) :
    Nat → List String → List String → GateState →
    Option (Except String Bool × GateState)
  | _, [], _, st => some (.ok false, st)
  | 0, _ :: _, _, _ => none
  | fuel + 1, currentId :: queue, seen, st =>
    if currentId = "" ∨ currentId ∈ seen then
      bfsAux store allowIds fuel queue seen st
    else
      if currentId ∈ allowIds then some (.ok true, st)
      else
        match getFileNode store currentId st with
        | (.error e, st1) => some (.error e, st1)
        | (.ok node, st1) =>
          if node.id ∈ allowIds then some (.ok true, st1)
          else
            bfsAux store allowIds fuel
              (queue ++ node.parents.filter (fun p => ¬ p ∈ currentId :: seen))
              (currentId :: seen) st1

/-- The node a successful store response denotes for a requested ID. -/
def respNode (k : String) : DriveResp → Option FileNode
  | .ok i p => some { id := jsOr i k, parents := p.getD [] }
  | _ => none

/-- All nodes the store can ever answer with. -/
def storeNodes (store : Store) : List FileNode :=
  store.filterMap (fun kv => respNode kv.1 kv.2)

/-- All nodes `getFileNode` can return in a state whose cache is `cache`:
cached nodes plus store-derived ones. -/
def reachNodes (store : Store) (cache : List (String × FileNode)) :
    List FileNode :=
  cache.map (fun kv => kv.2) ++ storeNodes store

/-- Every ID the BFS can ever push: a parent of some reachable node. -/
def pushables (store : Store) (cache : List (String × FileNode)) :
    List String :=
  ((reachNodes store cache).map (fun n => n.parents)).flatten

/-- A bound on how many parents one processed node can push. -/
def maxParents (store : Store) (cache : List (String × FileNode)) : Nat :=
  (reachNodes store cache).foldr (fun n acc => max n.parents.length acc) 0

/-- Fuel sufficient for the BFS started with queue `q`: generous bound on
the total number of loop iterations. -/
def suffFuel (store : Store) (cache : List (String × FileNode))
    (q : List String) : Nat :=
  q.length + (q ++ pushables store cache).length * (maxParents store cache + 1) + 1

/-- `isIdWithinAllowlist`: BFS over ancestors starting from `fileId`. -/
def isIdWithinAllowlist (store : Store) (fileId : String)
    (allowIds : List String) (st : GateState) :
    Option (Except String Bool × GateState) :=
  bfsAux store allowIds (suffFuel store st.cache [fileId]) [fileId] [] st

/-- `formatSources`. -/
def formatSources (sources : List String) : String :=
  if sources.length = 0 then "unknown source"
  else String.intercalate ", " sources

/-- Message of the allowlist-violation rejection thrown by
`assertWriteAccessInternal`'s loop. -/
def blockedMsg (actionDescription targetLabel targetId : String) : String :=
  "Write blocked by allowlist: " ++ actionDescription ++ ". The target " ++
    targetLabel ++ " (" ++ targetId ++ ") is not within a whitelisted file or folder."

/-- Message of the configuration-error rejection. -/
def configErrorMsg (sources : List String) (err : String) : String :=
  "Write allowlist configuration error (" ++ formatSources sources ++ "): " ++
    err ++ ". Writes are blocked."

/-- Message of the enabled-but-empty rejection. -/
def emptyAllowlistMsg (sources : List String) : String :=
  "Write allowlist is enabled but empty (" ++ formatSources sources ++
    "). Configure GOOGLE_DRIVE_WRITE_ALLOWLIST or GOOGLE_DRIVE_WRITE_ALLOWLIST_PATH to permit writes."

/-- The `for` loop of `assertWriteAccessInternal`: every target must pass
`isIdWithinAllowlist`, the first failure aborts the whole assertion. -/
def checkTargets (store : Store) (actionDescription targetLabel : String) :
    List String → GateState → Option (Except String Unit × GateState)
  | [], st => some (.ok (), st)
  | t :: ts, st =>
    match isIdWithinAllowlist store t st.ids st with
    | none => none
    | some (.error e, st1) => some (.error e, st1)
    | some (.ok true, st1) => checkTargets store actionDescription targetLabel ts st1
    | some (.ok false, st1) =>
      some (.error (blockedMsg actionDescription targetLabel t), st1)

/-- `assertWriteAccessInternal`: no-op when disabled; reject on a recorded
configuration error, then on an empty ID set; otherwise resolve the root
alias once and check every target. -/
def assertWriteAccessInternal (store : Store) (targetIds : List String)
    (actionDescription targetLabel : String) (st : GateState) :
    Option (Except String Unit × GateState) :=
  if st.enabled = false then some (.ok (), st)
  else
    match st.error with
    | some err => some (.error (configErrorMsg st.sources err), st)
    | none =>
      if st.ids.length = 0 then
        some (.error (emptyAllowlistMsg st.sources), st)
      else
        match ensureRootResolved store st with
        | (.error e, st1) => some (.error e, st1)
        | (.ok _, st1) => checkTargets store actionDescription targetLabel targetIds st1

/-- `assertWriteAccessForFile`. -/
def assertWriteAccessForFile (store : Store) (fileId : String)
    (actionDescription : String) (st : GateState) :
    Option (Except String Unit × GateState) :=
  assertWriteAccessInternal store [fileId] actionDescription "file" st

/-- `assertWriteAccessForParent`: an absent parent means the implicit root. -/
def assertWriteAccessForParent (store : Store) (parentId : Option String)
    (actionDescription : String) (st : GateState) :
    Option (Except String Unit × GateState) :=
  assertWriteAccessInternal store [parentId.getD "root"] actionDescription "parent" st

/-- `assertWriteAccessForParents`: absent or empty means one implicit-root
target. -/
def assertWriteAccessForParents (store : Store) (parentIds : Option (List String))
    (actionDescription : String) (st : GateState) :
    Option (Except String Unit × GateState) :=
  let targets := match parentIds with
    | some l => if l.length > 0 then l else ["root"]
    | none => ["root"]
  assertWriteAccessInternal store targets actionDescription "parents" st

/-- JavaScript whitespace for `String.prototype.trim` (the ASCII part;
allowlist IDs contain no exotic Unicode spaces). -/
def isJsWs (c : Char) : Bool :=
  c = ' ' ∨ c = '\t' ∨ c = '\n' ∨ c = '\r' ∨ c = '\x0b' ∨ c = '\x0c'

/-- Trim on character lists: drop leading and trailing whitespace. -/
def trimChars (l : List Char) : List Char :=
  ((l.dropWhile isJsWs).reverse.dropWhile isJsWs).reverse

/-- Model of JavaScript `String.prototype.trim`. -/
def jsTrim (s : String) : String :=
  String.mk (trimChars s.data)

/-- Separator class of the regex `[\n,]` used by `splitList`. -/
def isSepChar (c : Char) : Bool :=
  c = '\n' ∨ c = ','

/-- Split a character list at every separator, keeping empty pieces
(JavaScript `split` semantics: `"".split` gives one empty piece). -/
def splitCh (p : Char → Bool) : List Char → List (List Char)
  | [] => [[]]
  | c :: cs =>
    if p c then [] :: splitCh p cs
    else
      match splitCh p cs with
      | [] => [[c]]
      | g :: gs => (c :: g) :: gs

/-- `splitList`: split raw text on newlines and commas, trim every piece,
drop the empty ones. -/
def splitList (rawValue : String) : List String :=
  (((splitCh isSepChar rawValue.data).map (fun l => jsTrim (String.mk l)))).filter
    (fun v => 0 < v.length)

/-- Character-list prefix test (for `String.prototype.startsWith`). -/
def leadMatches : List Char → List Char → Bool
  | [], _ => true
  | _ :: _, [] => false
  | a :: as, b :: bs => if a = b then leadMatches as bs else false

/-- Model of JavaScript `String.prototype.startsWith`. -/
def jsStartsWith (s pre : String) : Bool :=
  leadMatches pre.data s.data

/-- A parsed JSON value, the output type of the external `JSON.parse`
collaborator (which is passed in as a function, see
`parseAllowlistInput`). -/
inductive Json where
  | null
  | bool (b : Bool)
  | num (n : Int)
  | str (s : String)
  | arr (elems : List Json)
  | obj (fields : List (String × Json))

/-- Model of JavaScript `String(x)` coercion for parsed JSON values (on
nested arrays the model is approximate; no claim depends on stringifying
a nested array or object). -/
def jsString : Json → String
  | .null => "null"
  | .bool true => "true"
  | .bool false => "false"
  | .num n => toString n
  | .str s => s
  | .arr _ => ""
  | .obj _ => "[object Object]"

/-- Field lookup in a parsed JSON object. -/
def jsonField : List (String × Json) → String → Option Json
  | [], _ => none
  | (k, v) :: rest, key => if key = k then some v else jsonField rest key

/-- `extractIds`: concatenate the `ids`, `files`, `folders` fields of a
parsed object, each a string or an array (stringified elementwise);
anything else is ignored. -/
def extractIds (fields : List (String × Json)) : List String :=
  ((["ids", "files", "folders"].map (fun field =>
    match jsonField fields field with
    | some (.arr xs) => xs.map jsString
    | some (.str s) => [s]
    | _ => []))).flatten

/-- `parseAllowlistInput`, with the external `JSON.parse` passed in as
`jsonEval` (a thrown parse error is its `.error` case): trim; empty input
yields no IDs; input starting with `{` or `[` is structured (array,
object with `ids`/`files`/`folders`, or bare string — anything else is an
error); otherwise plain text handled by `splitList`. -/
def parseAllowlistInput (jsonEval : String → Except String Json)
    (rawValue : String) : Except String (List String) :=
  let trimmed := jsTrim rawValue
  if trimmed = "" then .ok []
  else if jsStartsWith trimmed "\x7b" ∨ jsStartsWith trimmed "[" then
    match jsonEval trimmed with
    | .error e => .error e
    | .ok (.arr xs) => .ok (xs.map jsString)
    | .ok (.obj fields) => .ok (extractIds fields)
    | .ok (.str s) => .ok [s]
    | .ok _ => .error "Allowlist JSON must be an array or object with ids/files/folders."
  else .ok (splitList trimmed)

/-- First-occurrence-keeping insertion (JavaScript `Set` add). -/
def insertId (acc : List String) (x : String) : List String :=
  if x ∈ acc then acc else acc ++ [x]

/-- De-duplicate keeping first occurrences (`new Set(list)` iteration
order). -/
def dedupFirst (l : List String) : List String :=
  l.foldl insertId []

/-- IDs and errors collected from the inline configuration value (the
first `try` block of `loadAllowlistState`). -/
def parsedInline (jsonEval : String → Except String Json) (v : String) :
    List String × List String :=
  match parseAllowlistInput jsonEval v with
  | .ok l => (l, [])
  | .error e => ([], [e])

/-- IDs and errors collected from the allowlist file (the second `try`
block of `loadAllowlistState`: a read or parse failure is recorded with
the `Failed to read` prefix). -/
def parsedFile (jsonEval : String → Except String Json)
    (readFile : String → Except String String) (p : String) :
    List String × List String :=
  match readFile p with
  | .error e => ([], ["Failed to read " ++ p ++ ": " ++ e])
  | .ok contents =>
    match parseAllowlistInput jsonEval contents with
    | .ok l => (l, [])
    | .error e => ([], ["Failed to read " ++ p ++ ": " ++ e])

/-- `loadAllowlistState` plus the module initialization: build the whole
initial `GateState` from the two configuration sources.  `allowlistValue`
is the inline environment value, `readFile` the filesystem collaborator
(`.error` is a thrown read failure), `jsonEval` the `JSON.parse`
collaborator.  Each present source enables the allowlist and records a
provenance label; a parse or read failure is recorded in `error`; the
collected IDs are trimmed, cleaned of empties and de-duplicated. -/
def loadAllowlistState (jsonEval : String → Except String Json)
    (readFile : String → Except String String)
    (allowlistValue : Option String) (allowlistPath : Option String) :
    GateState :=
  let enabled := allowlistValue.isSome || allowlistPath.isSome
  let sources :=
    (match allowlistValue with
     | some _ => ["env:GOOGLE_DRIVE_WRITE_ALLOWLIST"]
     | none => []) ++
    (match allowlistPath with
     | some p => ["file:" ++ p]
     | none => [])
  let fromValue : List String × List String :=
    match allowlistValue with
    | none => ([], [])
    | some v => parsedInline jsonEval v
  let fromPath : List String × List String :=
    match allowlistPath with
    | none => ([], [])
    | some p => parsedFile jsonEval readFile p
  let ids := fromValue.1 ++ fromPath.1
  let errors := fromValue.2 ++ fromPath.2
  let normalizedIds :=
    dedupFirst ((ids.map jsTrim).filter (fun i => 0 < i.length))
  { enabled := enabled
    ids := normalizedIds
    sources := sources
    error := if errors.length > 0 then some (String.intercalate " " errors) else none
    rootResolved := false
    cache := []
    lookups := [] }

/-- Accept/reject outcome of an assertion run: `some true` means the
assertion returned normally, `some false` that it rejected, `none` that
the fuel ran out (never happens). -/
def assertOk (r : Option (Except String Unit × GateState)) : Option Bool :=
  r.map (fun p => match p.1 with | .ok _ => true | .error _ => false)

/-- State component of an assertion run. -/
def assertState (r : Option (Except String Unit × GateState)) : Option GateState :=
  r.map (fun p => p.2)

theorem alistGet_mapSet {β : Type} (m : List (String × β)) (k key : String) (v : β) :
    alistGet (mapSet m k v) key = if key = k then some v else alistGet m key := by
  simp [alistGet, mapSet]

theorem alistGet_mem {β : Type} :
    ∀ (l : List (String × β)) (k : String) (v : β),
      alistGet l k = some v → (k, v) ∈ l := by
  intro l
  induction l with
  | nil => intro k v h; simp [alistGet] at h
  | cons kv rest ih =>
    intro k v h
    by_cases hk : k = kv.1
    · subst hk
      have : some kv.2 = some v := by
        simpa [alistGet] using h
      simp [← Option.some_inj.mp this]
    · right
      apply ih
      rcases kv with ⟨k0, v0⟩
      simpa [alistGet, hk] using h

theorem bfsAux_mono (store : Store) (L : List String) (k : Nat) :
    ∀ (fuel : Nat) (q seen : List String) (st : GateState)
      (r : Except String Bool × GateState),
      bfsAux store L fuel q seen st = some r →
      bfsAux store L (fuel + k) q seen st = some r := by
  intro fuel
  induction fuel with
  | zero =>
    intro q seen st r h
    match q with
    | [] => simpa [bfsAux] using h
    | c :: cs => simp [bfsAux] at h
  | succ n ih =>
    intro q seen st r h
    match q with
    | [] => simpa [bfsAux] using h
    | c :: cs =>
      rw [show n + 1 + k = (n + k) + 1 by omega]
      by_cases h1 : c = "" ∨ c ∈ seen
      · simp only [bfsAux, if_pos h1] at h ⊢
        exact ih _ _ _ _ h
      · by_cases h2 : c ∈ L
        · simpa only [bfsAux, if_neg h1, if_pos h2] using h
        · simp only [bfsAux, if_neg h1, if_neg h2] at h ⊢
          rcases hg : getFileNode store c st with ⟨res, st1⟩
          rw [hg] at h
          cases res with
          | error e => exact h
          | ok node =>
            by_cases h3 : node.id ∈ L
            · simp only [if_pos h3] at h ⊢
              exact h
            · simp only [if_neg h3] at h ⊢
              exact ih _ _ _ _ h

theorem bfsAux_head_mem (store : Store) (L : List String)
    (fuel : Nat) (t : String) (q seen : List String) (st : GateState)
    (hfuel : 1 ≤ fuel) (hne : ¬ t = "") (hseen : ¬ t ∈ seen) (hmem : t ∈ L) :
    bfsAux store L fuel (t :: q) seen st = some (.ok true, st) := by
  match fuel with
  | 0 => omega
  | n + 1 =>
    have h1 : ¬ (t = "" ∨ t ∈ seen) := by
      intro h; rcases h with h | h
      · exact hne h
      · exact hseen h
    simp only [bfsAux, if_neg h1, if_pos hmem]

theorem bfsAux_head_error (store : Store) (L : List String)
    (fuel : Nat) (t : String) (q seen : List String) (st st1 : GateState)
    (e : String) (hfuel : 1 ≤ fuel) (hne : ¬ t = "") (hseen : ¬ t ∈ seen)
    (hmem : ¬ t ∈ L) (hg : getFileNode store t st = (.error e, st1)) :
    bfsAux store L fuel (t :: q) seen st = some (.error e, st1) := by
  match fuel with
  | 0 => omega
  | n + 1 =>
    have h1 : ¬ (t = "" ∨ t ∈ seen) := by
      intro h; rcases h with h | h
      · exact hne h
      · exact hseen h
    simp only [bfsAux, if_neg h1, if_neg hmem, hg]

theorem one_le_suffFuel (store : Store) (cache : List (String × FileNode))
    (q : List String) : 1 ≤ suffFuel store cache q := by
  simp [suffFuel]

theorem isIdWithin_head_mem (store : Store) (L : List String) (t : String)
    (st : GateState) (hne : ¬ t = "") (hmem : t ∈ L) :
    isIdWithinAllowlist store t L st = some (.ok true, st) :=
  bfsAux_head_mem store L _ t [] [] st (one_le_suffFuel store st.cache [t]) hne
    (by simp) hmem

theorem isIdWithin_head_error (store : Store) (L : List String) (t : String)
    (st st1 : GateState) (e : String) (hne : ¬ t = "") (hmem : ¬ t ∈ L)
    (hg : getFileNode store t st = (.error e, st1)) :
    isIdWithinAllowlist store t L st = some (.error e, st1) :=
  bfsAux_head_error store L _ t [] [] st st1 e (one_le_suffFuel store st.cache [t])
    hne (by simp) hmem hg

/-- Every node in the cache is one the state could reach: it is listed in
`reachNodes` of the reference cache `cache0`. -/
def NodesOk (store : Store) (cache0 c : List (String × FileNode)) : Prop :=
  ∀ kv ∈ c, kv.2 ∈ reachNodes store cache0

theorem parents_le_maxParents (store : Store) (cache0 : List (String × FileNode)) :
    ∀ n ∈ reachNodes store cache0, n.parents.length ≤ maxParents store cache0 := by
  unfold maxParents
  generalize reachNodes store cache0 = l
  induction l with
  | nil => simp
  | cons x xs ih =>
    intro n hn
    simp only [List.foldr_cons]
    rcases List.mem_cons.mp hn with h | h
    · subst h
      exact Nat.le_max_left _ _
    · exact (ih n h).trans (Nat.le_max_right _ _)

theorem mem_pushables (store : Store) (cache0 : List (String × FileNode))
    (n : FileNode) (p : String) (hn : n ∈ reachNodes store cache0)
    (hp : p ∈ n.parents) : p ∈ pushables store cache0 := by
  unfold pushables
  exact List.mem_flatten.mpr ⟨n.parents, List.mem_map.mpr ⟨n, hn, rfl⟩, hp⟩

theorem getFileNode_reach (store : Store) (cache0 : List (String × FileNode))
    (k : String) (st st1 : GateState) (res : Except String FileNode)
    (hN : NodesOk store cache0 st.cache) (hg : getFileNode store k st = (res, st1)) :
    NodesOk store cache0 st1.cache ∧
      ∀ n, res = .ok n → n ∈ reachNodes store cache0 := by
  unfold getFileNode at hg
  rcases hc : alistGet st.cache k with _ | cached
  · rw [hc] at hg
    rcases hs : storeGet store k with _ | resp
    · rw [hs] at hg
      refine ⟨?_, ?_⟩
      · have : st1.cache = st.cache := by
          cases hg; rfl
        rw [this]; exact hN
      · intro n hres
        cases hg; cases hres
    · rcases resp with ⟨i, p⟩ | _ | m
      · rw [hs] at hg
        have hnode : FileNode.mk (jsOr i k) (p.getD []) ∈ reachNodes store cache0 := by
          have hmem : (k, DriveResp.ok i p) ∈ store := alistGet_mem store k _ hs
          have hsn : FileNode.mk (jsOr i k) (p.getD []) ∈ storeNodes store :=
            List.mem_filterMap.mpr ⟨(k, DriveResp.ok i p), hmem, rfl⟩
          exact List.mem_append.mpr (Or.inr hsn)
        refine ⟨?_, ?_⟩
        · intro kv hkv
          have hcache : st1.cache =
              (if jsOr i k ≠ "" ∧ jsOr i k ≠ k then
                mapSet (mapSet st.cache k (FileNode.mk (jsOr i k) (p.getD [])))
                  (jsOr i k) (FileNode.mk (jsOr i k) (p.getD []))
              else mapSet st.cache k (FileNode.mk (jsOr i k) (p.getD []))) := by
            cases hg; rfl
          rw [hcache] at hkv
          by_cases hguard : jsOr i k ≠ "" ∧ jsOr i k ≠ k
          · rw [if_pos hguard] at hkv
            rcases List.mem_cons.mp hkv with h | h
            · subst h; exact hnode
            · rcases List.mem_cons.mp h with h2 | h2
              · subst h2; exact hnode
              · exact hN kv h2
          · rw [if_neg hguard] at hkv
            rcases List.mem_cons.mp hkv with h | h
            · subst h; exact hnode
            · exact hN kv h
        · intro n hres
          have : res = .ok (FileNode.mk (jsOr i k) (p.getD [])) := by
            cases hg; rfl
          rw [this] at hres
          cases hres
          exact hnode
      · rw [hs] at hg
        refine ⟨?_, ?_⟩
        · have : st1.cache = st.cache := by cases hg; rfl
          rw [this]; exact hN
        · intro n hres; cases hg; cases hres
      · rw [hs] at hg
        refine ⟨?_, ?_⟩
        · have : st1.cache = st.cache := by cases hg; rfl
          rw [this]; exact hN
        · intro n hres; cases hg; cases hres
  · rw [hc] at hg
    cases hg
    refine ⟨hN, ?_⟩
    intro n hres
    cases hres
    exact hN (k, cached) (alistGet_mem st.cache k cached hc)

theorem length_filter_imp {α : Type} (pa pb : α → Bool)
    (h : ∀ a, pa a = true → pb a = true) :
    ∀ l : List α, (l.filter pa).length ≤ (l.filter pb).length := by
  intro l
  induction l with
  | nil => simp
  | cons x xs ih =>
    by_cases hx : pa x = true
    · rw [List.filter_cons_of_pos hx, List.filter_cons_of_pos (h x hx)]
      simpa using ih
    · rw [List.filter_cons_of_neg (by simpa using hx)]
      by_cases hx2 : pb x = true
      · rw [List.filter_cons_of_pos hx2]
        exact Nat.le_succ_of_le ih
      · rw [List.filter_cons_of_neg (by simpa using hx2)]
        exact ih

theorem seen_grow_count (c : String) (seen : List String) :
    ∀ U : List String, c ∈ U → ¬ c ∈ seen →
      (U.filter (fun x => ¬ x ∈ c :: seen)).length + 1 ≤
        (U.filter (fun x => ¬ x ∈ seen)).length := by
  intro U
  induction U with
  | nil => intro h; simp at h
  | cons u us ih =>
    intro hc hcs
    by_cases hu : u = c
    · subst hu
      rw [List.filter_cons_of_neg (by simp), List.filter_cons_of_pos (by simpa using hcs)]
      have := length_filter_imp (fun x => ¬ x ∈ u :: seen) (fun x => ¬ x ∈ seen)
        (by intro a ha
            simp only [decide_eq_true_eq] at ha ⊢
            intro hmem
            exact ha (List.mem_cons_of_mem u hmem)) us
      simpa using this
    · have hcus : c ∈ us := by
        rcases List.mem_cons.mp hc with h | h
        · exact absurd h.symm hu
        · exact h
      by_cases hus : u ∈ seen
      · rw [List.filter_cons_of_neg (by simp [hus]),
          List.filter_cons_of_neg (by simp [hus])]
        exact ih hcus hcs
      · have hu2 : ¬ u ∈ c :: seen := by
          intro h
          rcases List.mem_cons.mp h with h | h
          · exact hu h
          · exact hus h
        rw [List.filter_cons_of_pos (by simpa using hu2),
          List.filter_cons_of_pos (by simpa using hus)]
        simpa using ih hcus hcs

theorem bfsAux_suff (store : Store) (L : List String)
    (cache0 : List (String × FileNode)) (U : List String)
    (hU : ∀ p ∈ pushables store cache0, p ∈ U) :
    ∀ (fuel : Nat) (q seen : List String) (st : GateState),
      (∀ x ∈ q, x ∈ U) →
      NodesOk store cache0 st.cache →
      q.length + (U.filter (fun x => ¬ x ∈ seen)).length *
        (maxParents store cache0 + 1) ≤ fuel →
      bfsAux store L fuel q seen st ≠ none := by
  intro fuel
  induction fuel with
  | zero =>
    intro q seen st hq hN hb
    match q with
    | [] => simp [bfsAux]
    | c :: cs => simp only [List.length_cons] at hb; omega
  | succ n ih =>
    intro q seen st hq hN hb
    match q with
    | [] => simp [bfsAux]
    | c :: cs =>
      by_cases h1 : c = "" ∨ c ∈ seen
      · simp only [bfsAux, if_pos h1]
        apply ih cs seen st (fun x hx => hq x (List.mem_cons_of_mem c hx)) hN
        simp only [List.length_cons] at hb
        omega
      · by_cases h2 : c ∈ L
        · simp [bfsAux, if_neg h1, if_pos h2]
        · simp only [bfsAux, if_neg h1, if_neg h2]
          rcases hg : getFileNode store c st with ⟨res, st1⟩
          have hpre := getFileNode_reach store cache0 c st st1 res hN hg
          cases res with
          | error e => simp
          | ok node =>
            by_cases h3 : node.id ∈ L
            · simp [if_pos h3]
            · simp only [if_neg h3]
              have hreach : node ∈ reachNodes store cache0 := hpre.2 node rfl
              apply ih _ _ _ ?_ hpre.1 ?_
              · intro x hx
                rcases List.mem_append.mp hx with h | h
                · exact hq x (List.mem_cons_of_mem c h)
                · exact hU x (mem_pushables store cache0 node x hreach
                    (List.mem_of_mem_filter h))
              · have hcU : c ∈ U := hq c (List.mem_cons_self c cs)
                have hcs : ¬ c ∈ seen := fun h => h1 (Or.inr h)
                have hcount := seen_grow_count c seen U hcU hcs
                have hpush : (node.parents.filter (fun p => ¬ p ∈ c :: seen)).length ≤
                    maxParents store cache0 :=
                  (List.length_filter_le _ _).trans
                    (parents_le_maxParents store cache0 node hreach)
                set P := maxParents store cache0 with hP
                set m1 := (U.filter (fun x => ¬ x ∈ c :: seen)).length with hm1
                set m := (U.filter (fun x => ¬ x ∈ seen)).length with hm
                have hmul : (m1 + 1) * (P + 1) ≤ m * (P + 1) :=
                  Nat.mul_le_mul_right (P + 1) hcount
                have hexp : (m1 + 1) * (P + 1) = m1 * (P + 1) + (P + 1) := by ring
                simp only [List.length_cons, List.length_append] at hb ⊢
                omega

theorem isIdWithinAllowlist_total (store : Store) (L : List String)
    (fileId : String) (st : GateState) :
    isIdWithinAllowlist store fileId L st ≠ none := by
  unfold isIdWithinAllowlist
  apply bfsAux_suff store L st.cache ([fileId] ++ pushables store st.cache)
    (fun p hp => List.mem_append.mpr (Or.inr hp)) _ _ _ _
    (fun x hx => List.mem_append.mpr (Or.inl hx))
    (fun kv hkv => List.mem_append.mpr (Or.inl (List.mem_map.mpr ⟨kv, hkv, rfl⟩)))
  have hfe : (([fileId] ++ pushables store st.cache).filter
      (fun x => ¬ x ∈ ([] : List String))).length ≤
      ([fileId] ++ pushables store st.cache).length :=
    List.length_filter_le _ _
  have hmul := Nat.mul_le_mul_right (maxParents store st.cache + 1) hfe
  unfold suffFuel
  omega

theorem checkTargets_total (store : Store) (d lbl : String) :
    ∀ (ts : List String) (st : GateState),
      checkTargets store d lbl ts st ≠ none := by
  intro ts
  induction ts with
  | nil => intro st; simp [checkTargets]
  | cons t ts ih =>
    intro st
    simp only [checkTargets]
    rcases hw : isIdWithinAllowlist store t st.ids st with _ | ⟨res, st1⟩
    · exact absurd hw (isIdWithinAllowlist_total store st.ids t st)
    · cases res with
      | error e => simp
      | ok b =>
        cases b
        · simp
        · simpa using ih st1

theorem assertWriteAccessInternal_total (store : Store) (ts : List String)
    (d lbl : String) (st : GateState) :
    assertWriteAccessInternal store ts d lbl st ≠ none := by
  unfold assertWriteAccessInternal
  by_cases hEn : st.enabled = false
  · simp [hEn]
  · rcases hErr : st.error with _ | e
    · by_cases hIds : st.ids.length = 0
      · simp [hEn, hErr, hIds]
      · simp only [if_neg hEn, hErr, if_pos, if_neg hIds]
        rcases hr : ensureRootResolved store st with ⟨eres, st1⟩
        cases eres with
        | error e => simp
        | ok u => simpa using checkTargets_total store d lbl ts st1
    · simp [hEn, hErr]

theorem getFileNode_frame (store : Store) (k : String) (st st1 : GateState)
    (res : Except String FileNode)
    (hg : getFileNode store k st = (res, st1)) :
    st1.enabled = st.enabled ∧ st1.ids = st.ids ∧ st1.sources = st.sources ∧
    st1.error = st.error ∧ st1.rootResolved = st.rootResolved ∧
    (∀ key v, alistGet st.cache key = some v → ∃ v2, alistGet st1.cache key = some v2) ∧
    ((st1.lookups = st.lookups ∧ st1.cache = st.cache) ∨
      (st1.lookups = st.lookups ++ [k] ∧ alistGet st.cache k = none)) := by
  unfold getFileNode at hg
  rcases hc : alistGet st.cache k with _ | cached
  · rw [hc] at hg
    rcases hs : storeGet store k with _ | resp
    · rw [hs] at hg
      cases hg
      exact ⟨rfl, rfl, rfl, rfl, rfl, fun key v hv => ⟨v, hv⟩, Or.inr ⟨rfl, rfl⟩⟩
    · rcases resp with ⟨i, p⟩ | _ | m
      · rw [hs] at hg
        cases hg
        refine ⟨rfl, rfl, rfl, rfl, rfl, ?_, Or.inr ⟨rfl, rfl⟩⟩
        intro key v hv
        show ∃ v2, alistGet
          (if jsOr i k ≠ "" ∧ jsOr i k ≠ k then
            mapSet (mapSet st.cache k (FileNode.mk (jsOr i k) (p.getD [])))
              (jsOr i k) (FileNode.mk (jsOr i k) (p.getD []))
          else mapSet st.cache k (FileNode.mk (jsOr i k) (p.getD []))) key = some v2
        by_cases hguard : jsOr i k ≠ "" ∧ jsOr i k ≠ k
        · rw [if_pos hguard, alistGet_mapSet]
          by_cases h1 : key = jsOr i k
          · exact ⟨_, by rw [if_pos h1]⟩
          · rw [if_neg h1, alistGet_mapSet]
            by_cases h2 : key = k
            · exact ⟨_, by rw [if_pos h2]⟩
            · rw [if_neg h2]; exact ⟨v, hv⟩
        · rw [if_neg hguard, alistGet_mapSet]
          by_cases h2 : key = k
          · exact ⟨_, by rw [if_pos h2]⟩
          · rw [if_neg h2]; exact ⟨v, hv⟩
      · rw [hs] at hg
        cases hg
        exact ⟨rfl, rfl, rfl, rfl, rfl, fun key v hv => ⟨v, hv⟩, Or.inr ⟨rfl, rfl⟩⟩
      · rw [hs] at hg
        cases hg
        exact ⟨rfl, rfl, rfl, rfl, rfl, fun key v hv => ⟨v, hv⟩, Or.inr ⟨rfl, rfl⟩⟩
  · rw [hc] at hg
    cases hg
    exact ⟨rfl, rfl, rfl, rfl, rfl, fun key v hv => ⟨v, hv⟩, Or.inl ⟨rfl, rfl⟩⟩

theorem bfsAux_frame (store : Store) (L : List String) :
    ∀ (fuel : Nat) (q seen : List String) (st : GateState)
      (r : Except String Bool) (st' : GateState),
      bfsAux store L fuel q seen st = some (r, st') →
      st'.enabled = st.enabled ∧ st'.ids = st.ids ∧ st'.sources = st.sources ∧
      st'.error = st.error ∧ st'.rootResolved = st.rootResolved ∧
      (∀ key v, alistGet st.cache key = some v → ∃ v2, alistGet st'.cache key = some v2) ∧
      ∃ Δ, st'.lookups = st.lookups ++ Δ ∧ Δ.Nodup ∧
        ∀ x ∈ Δ, ¬ x ∈ seen ∧ alistGet st.cache x = none := by
  intro fuel
  induction fuel with
  | zero =>
    intro q seen st r st' h
    match q with
    | [] =>
      rw [show bfsAux store L 0 [] seen st = some (.ok false, st) from rfl] at h
      cases h
      exact ⟨rfl, rfl, rfl, rfl, rfl, fun key v hv => ⟨v, hv⟩,
        [], by simp, by simp, by simp⟩
    | c :: cs => simp [bfsAux] at h
  | succ n ih =>
    intro q seen st r st' h
    match q with
    | [] =>
      rw [show bfsAux store L (n + 1) [] seen st = some (.ok false, st) from rfl] at h
      cases h
      exact ⟨rfl, rfl, rfl, rfl, rfl, fun key v hv => ⟨v, hv⟩,
        [], by simp, by simp, by simp⟩
    | c :: cs =>
      by_cases h1 : c = "" ∨ c ∈ seen
      · simp only [bfsAux, if_pos h1] at h
        exact ih cs seen st r st' h
      · by_cases h2 : c ∈ L
        · simp only [bfsAux, if_neg h1, if_pos h2] at h
          cases h
          exact ⟨rfl, rfl, rfl, rfl, rfl, fun key v hv => ⟨v, hv⟩,
            [], by simp, by simp, by simp⟩
        · simp only [bfsAux, if_neg h1, if_neg h2] at h
          rcases hg : getFileNode store c st with ⟨res, st1⟩
          rw [hg] at h
          have hf := getFileNode_frame store c st st1 res hg
          rcases hf with ⟨hen, hids, hsrc, herr, hroot, hmono, hlog⟩
          have hcnone : ∀ x, x ∈ ([] : List String) ∨ x = c →
              st1.lookups = st.lookups ++ [c] → True := fun _ _ _ => trivial
          cases res with
          | error e =>
            cases h
            refine ⟨hen, hids, hsrc, herr, hroot, hmono, ?_⟩
            rcases hlog with ⟨hl, hcache⟩ | ⟨hl, hnone⟩
            · exact ⟨[], by simp [hl], by simp, by simp⟩
            · refine ⟨[c], by simp [hl], by simp, ?_⟩
              intro x hx
              rcases List.mem_singleton.mp hx with rfl
              exact ⟨fun hmem => h1 (Or.inr hmem), hnone⟩
          | ok node =>
            by_cases h3 : node.id ∈ L
            · simp only [if_pos h3] at h
              cases h
              refine ⟨hen, hids, hsrc, herr, hroot, hmono, ?_⟩
              rcases hlog with ⟨hl, hcache⟩ | ⟨hl, hnone⟩
              · exact ⟨[], by simp [hl], by simp, by simp⟩
              · refine ⟨[c], by simp [hl], by simp, ?_⟩
                intro x hx
                rcases List.mem_singleton.mp hx with rfl
                exact ⟨fun hmem => h1 (Or.inr hmem), hnone⟩
            · simp only [if_neg h3] at h
              have hrec := ih _ _ _ _ _ h
              rcases hrec with ⟨hen2, hids2, hsrc2, herr2, hroot2, hmono2,
                Δ2, hl2, hnod2, hmem2⟩
              refine ⟨hen2.trans hen, hids2.trans hids, hsrc2.trans hsrc,
                herr2.trans herr, hroot2.trans hroot, ?_, ?_⟩
              · intro key v hv
                rcases hmono key v hv with ⟨v2, hv2⟩
                exact hmono2 key v2 hv2
              · have hnone_lift : ∀ x, alistGet st1.cache x = none →
                    alistGet st.cache x = none := by
                  intro x hx
                  rcases hq : alistGet st.cache x with _ | v
                  · rfl
                  · rcases hmono x v hq with ⟨v2, hv2⟩
                    rw [hx] at hv2
                    cases hv2
                rcases hlog with ⟨hl, hcache⟩ | ⟨hl, hnone⟩
                · refine ⟨Δ2, by rw [hl2, hl], hnod2, ?_⟩
                  intro x hx
                  have := hmem2 x hx
                  exact ⟨fun hmem => this.1 (List.mem_cons_of_mem c hmem),
                    hnone_lift x this.2⟩
                · refine ⟨c :: Δ2, ?_, ?_, ?_⟩
                  · rw [hl2, hl, List.append_assoc]
                    rfl
                  · rw [List.nodup_cons]
                    refine ⟨fun hcmem => ?_, hnod2⟩
                    exact (hmem2 c hcmem).1 (List.mem_cons_self c seen)
                  · intro x hx
                    rcases List.mem_cons.mp hx with rfl | hx2
                    · exact ⟨fun hmem => h1 (Or.inr hmem), hnone⟩
                    · have := hmem2 x hx2
                      exact ⟨fun hmem => this.1 (List.mem_cons_of_mem c hmem),
                        hnone_lift x this.2⟩

theorem mem_addId (l : List String) (x y : String) (h : x ∈ l) :
    x ∈ addId l y := by
  unfold addId
  by_cases hy : y ∈ l
  · rw [if_pos hy]; exact h
  · rw [if_neg hy]; exact List.mem_append.mpr (Or.inl h)

theorem self_mem_addId (l : List String) (y : String) : y ∈ addId l y := by
  unfold addId
  by_cases hy : y ∈ l
  · rw [if_pos hy]; exact hy
  · rw [if_neg hy]; exact List.mem_append.mpr (Or.inr (List.mem_singleton.mpr rfl))

theorem ensureRootResolved_frame (store : Store) (st : GateState)
    (res : Except String Unit) (st1 : GateState)
    (h : ensureRootResolved store st = (res, st1)) :
    st1.enabled = st.enabled ∧ st1.sources = st.sources ∧ st1.error = st.error ∧
    (∀ x ∈ st.ids, x ∈ st1.ids) ∧
    (∀ key v, alistGet st.cache key = some v → ∃ v2, alistGet st1.cache key = some v2) ∧
    ∃ Δ, st1.lookups = st.lookups ++ Δ ∧ ∀ x ∈ Δ, alistGet st.cache x = none := by
  unfold ensureRootResolved at h
  by_cases hcond : st.rootResolved ∨ ¬ "root" ∈ st.ids
  · rw [if_pos hcond] at h
    cases h
    exact ⟨rfl, rfl, rfl, fun x hx => hx, fun key v hv => ⟨v, hv⟩,
      [], by simp, by simp⟩
  · rw [if_neg hcond] at h
    rcases hg : getFileNode store "root" st with ⟨gres, stg⟩
    rw [hg] at h
    have hf := getFileNode_frame store "root" st stg gres hg
    rcases hf with ⟨hen, hids, hsrc, herr, _, hmono, hlog⟩
    have hΔ : ∃ Δ, stg.lookups = st.lookups ++ Δ ∧
        ∀ x ∈ Δ, alistGet st.cache x = none := by
      rcases hlog with ⟨hl, _⟩ | ⟨hl, hnone⟩
      · exact ⟨[], by simp [hl], by simp⟩
      · refine ⟨["root"], by simp [hl], ?_⟩
        intro x hx
        rcases List.mem_singleton.mp hx with rfl
        exact hnone
    cases gres with
    | error e =>
      have h2 : ((Except.error e : Except String Unit), stg) = (res, st1) := h
      cases h2
      exact ⟨hen, hsrc, herr, fun x hx => hids ▸ hx, hmono, hΔ⟩
    | ok rootNode =>
      have h2 : ((Except.ok () : Except String Unit),
          { (if rootNode.id ≠ "" ∧ rootNode.id ≠ "root" then
              { stg with ids := addId stg.ids rootNode.id }
            else stg) with
            rootResolved := true }) = (res, st1) := h
      by_cases hguard : rootNode.id ≠ "" ∧ rootNode.id ≠ "root"
      · rw [if_pos hguard] at h2
        cases h2
        refine ⟨hen, hsrc, herr, ?_, hmono, hΔ⟩
        intro x hx
        exact mem_addId stg.ids x rootNode.id (by rw [hids]; exact hx)
      · rw [if_neg hguard] at h2
        cases h2
        exact ⟨hen, hsrc, herr, fun x hx => hids ▸ hx, hmono, hΔ⟩

theorem checkTargets_frame (store : Store) (d lbl : String) :
    ∀ (ts : List String) (st : GateState) (r : Except String Unit) (st' : GateState),
      checkTargets store d lbl ts st = some (r, st') →
      st'.enabled = st.enabled ∧ st'.ids = st.ids ∧ st'.sources = st.sources ∧
      st'.error = st.error ∧ st'.rootResolved = st.rootResolved ∧
      (∀ key v, alistGet st.cache key = some v → ∃ v2, alistGet st'.cache key = some v2) ∧
      ∃ Δ, st'.lookups = st.lookups ++ Δ ∧ ∀ x ∈ Δ, alistGet st.cache x = none := by
  intro ts
  induction ts with
  | nil =>
    intro st r st' h
    rw [show checkTargets store d lbl [] st = some (.ok (), st) from rfl] at h
    cases h
    exact ⟨rfl, rfl, rfl, rfl, rfl, fun key v hv => ⟨v, hv⟩, [], by simp, by simp⟩
  | cons t ts ih =>
    intro st r st' h
    simp only [checkTargets] at h
    rcases hw : isIdWithinAllowlist store t st.ids st with _ | ⟨res, st1⟩
    · rw [hw] at h; cases h
    · rw [hw] at h
      have hfr := bfsAux_frame store st.ids _ _ _ _ _ _ hw
      rcases hfr with ⟨hen, hids, hsrc, herr, hroot, hmono, Δ1, hl1, _, hmem1⟩
      have hnone_lift : ∀ x, alistGet st1.cache x = none →
          alistGet st.cache x = none := by
        intro x hx
        rcases hq : alistGet st.cache x with _ | v
        · rfl
        · rcases hmono x v hq with ⟨v2, hv2⟩
          rw [hx] at hv2
          cases hv2
      cases res with
      | error e =>
        have h2 : some ((Except.error e : Except String Unit), st1) = some (r, st') := h
        cases h2
        refine ⟨hen, hids, hsrc, herr, hroot, hmono, Δ1, hl1, ?_⟩
        intro x hx
        exact (hmem1 x hx).2
      | ok b =>
        cases b
        · have h2 : some ((Except.error (blockedMsg d lbl t) : Except String Unit), st1) =
              some (r, st') := h
          cases h2
          refine ⟨hen, hids, hsrc, herr, hroot, hmono, Δ1, hl1, ?_⟩
          intro x hx
          exact (hmem1 x hx).2
        · have hrec := ih st1 r st' h
          rcases hrec with ⟨hen2, hids2, hsrc2, herr2, hroot2, hmono2, Δ2, hl2, hmem2⟩
          refine ⟨hen2.trans hen, hids2.trans hids, hsrc2.trans hsrc,
            herr2.trans herr, hroot2.trans hroot, ?_, ?_⟩
          · intro key v hv
            rcases hmono key v hv with ⟨v2, hv2⟩
            exact hmono2 key v2 hv2
          · refine ⟨Δ1 ++ Δ2, by rw [hl2, hl1, List.append_assoc], ?_⟩
            intro x hx
            rcases List.mem_append.mp hx with hx1 | hx2
            · exact (hmem1 x hx1).2
            · exact hnone_lift x (hmem2 x hx2)

theorem assertInternal_frame (store : Store) (ts : List String)
    (d lbl : String) (st : GateState) (r : Except String Unit) (st' : GateState)
    (h : assertWriteAccessInternal store ts d lbl st = some (r, st')) :
    st'.enabled = st.enabled ∧ st'.sources = st.sources ∧ st'.error = st.error ∧
    (∀ x ∈ st.ids, x ∈ st'.ids) ∧
    (∀ key v, alistGet st.cache key = some v → ∃ v2, alistGet st'.cache key = some v2) ∧
    ∃ Δ, st'.lookups = st.lookups ++ Δ ∧ ∀ x ∈ Δ, alistGet st.cache x = none := by
  unfold assertWriteAccessInternal at h
  by_cases hEn : st.enabled = false
  · rw [if_pos hEn] at h
    cases h
    exact ⟨rfl, rfl, rfl, fun x hx => hx, fun key v hv => ⟨v, hv⟩, [], by simp, by simp⟩
  · rw [if_neg hEn] at h
    rcases hErr : st.error with _ | e
    · rw [hErr] at h
      by_cases hIds : st.ids.length = 0
      · rw [if_pos hIds] at h
        cases h
        exact ⟨rfl, rfl, hErr, fun x hx => hx, fun key v hv => ⟨v, hv⟩, [], by simp, by simp⟩
      · rw [if_neg hIds] at h
        rcases hr : ensureRootResolved store st with ⟨eres, st1⟩
        rw [hr] at h
        have hef := ensureRootResolved_frame store st eres st1 hr
        rcases hef with ⟨hen1, hsrc1, herr1, hids1, hmono1, Δ1, hl1, hmem1⟩
        have hnone_lift : ∀ x, alistGet st1.cache x = none →
            alistGet st.cache x = none := by
          intro x hx
          rcases hq : alistGet st.cache x with _ | v
          · rfl
          · rcases hmono1 x v hq with ⟨v2, hv2⟩
            rw [hx] at hv2
            cases hv2
        cases eres with
        | error e =>
          cases h
          exact ⟨hen1, hsrc1, herr1.trans hErr, hids1, hmono1, Δ1, hl1, hmem1⟩
        | ok u =>
          have hcf := checkTargets_frame store d lbl ts st1 r st' h
          rcases hcf with ⟨hen2, hids2, hsrc2, herr2, _, hmono2, Δ2, hl2, hmem2⟩
          refine ⟨hen2.trans hen1, hsrc2.trans hsrc1, (herr2.trans herr1).trans hErr, ?_, ?_, ?_⟩
          · intro x hx
            exact hids2 ▸ hids1 x hx
          · intro key v hv
            rcases hmono1 key v hv with ⟨v2, hv2⟩
            exact hmono2 key v2 hv2
          · refine ⟨Δ1 ++ Δ2, by rw [hl2, hl1, List.append_assoc], ?_⟩
            intro x hx
            rcases List.mem_append.mp hx with hx1 | hx2
            · exact hmem1 x hx1
            · exact hnone_lift x (hmem2 x hx2)
    · rw [hErr] at h
      cases h
      exact ⟨rfl, rfl, hErr, fun x hx => hx, fun key v hv => ⟨v, hv⟩, [], by simp, by simp⟩

theorem getFileNode_miss_ok (store : Store) (k : String) (st : GateState)
    (i : Option String) (p : Option (List String))
    (hc : alistGet st.cache k = none) (hs : storeGet store k = some (.ok i p)) :
    getFileNode store k st = (.ok (FileNode.mk (jsOr i k) (p.getD [])),
      { st with
        lookups := st.lookups ++ [k],
        cache := (if jsOr i k ≠ "" ∧ jsOr i k ≠ k then
          mapSet (mapSet st.cache k (FileNode.mk (jsOr i k) (p.getD [])))
            (jsOr i k) (FileNode.mk (jsOr i k) (p.getD []))
          else mapSet st.cache k (FileNode.mk (jsOr i k) (p.getD []))) }) := by
  unfold getFileNode
  rw [hc, hs]

theorem getFileNode_miss_ok_plain (store : Store) (k : String) (st : GateState)
    (p : Option (List String)) (hc : alistGet st.cache k = none)
    (hs : storeGet store k = some (.ok none p)) :
    getFileNode store k st = (.ok (FileNode.mk k (p.getD [])),
      { st with
        lookups := st.lookups ++ [k],
        cache := mapSet st.cache k (FileNode.mk k (p.getD [])) }) := by
  have h := getFileNode_miss_ok store k st none p hc hs
  have hj : jsOr none k = k := rfl
  rw [hj] at h
  simpa using h

theorem getFileNode_miss_notFound (store : Store) (k : String) (st : GateState)
    (hc : alistGet st.cache k = none) (hs : storeGet store k = none) :
    getFileNode store k st =
      (.error (notFoundMsg k), { st with lookups := st.lookups ++ [k] }) := by
  unfold getFileNode
  rw [hc, hs]

theorem getFileNode_miss_denied (store : Store) (k : String) (st : GateState)
    (hc : alistGet st.cache k = none)
    (hs : storeGet store k = some .permissionDenied) :
    getFileNode store k st =
      (.error (permissionMsg k), { st with lookups := st.lookups ++ [k] }) := by
  unfold getFileNode
  rw [hc, hs]

theorem getFileNode_miss_failure (store : Store) (k : String) (st : GateState)
    (m : String) (hc : alistGet st.cache k = none)
    (hs : storeGet store k = some (.failure m)) :
    getFileNode store k st =
      (.error (otherFailureMsg k m), { st with lookups := st.lookups ++ [k] }) := by
  unfold getFileNode
  rw [hc, hs]

theorem ensureRoot_skip (store : Store) (st : GateState)
    (h : st.rootResolved = true ∨ ¬ "root" ∈ st.ids) :
    ensureRootResolved store st = (.ok (), st) := by
  unfold ensureRootResolved
  rw [if_pos (by simpa using h)]

theorem assertInternal_steps (store : Store) (ts : List String)
    (d lbl : String) (st st1 : GateState)
    (hEn : st.enabled = true) (hErr : st.error = none)
    (hIds : ¬ st.ids.length = 0)
    (hr : ensureRootResolved store st = (.ok (), st1)) :
    assertWriteAccessInternal store ts d lbl st = checkTargets store d lbl ts st1 := by
  unfold assertWriteAccessInternal
  rw [if_neg (by simp [hEn]), hErr, if_neg hIds, hr]

theorem checkTargets_single_true (store : Store) (d lbl t : String)
    (st st1 : GateState)
    (hw : isIdWithinAllowlist store t st.ids st = some (.ok true, st1)) :
    checkTargets store d lbl [t] st = some (.ok (), st1) := by
  simp only [checkTargets]
  rw [hw]

theorem checkTargets_single_false (store : Store) (d lbl t : String)
    (st st1 : GateState)
    (hw : isIdWithinAllowlist store t st.ids st = some (.ok false, st1)) :
    checkTargets store d lbl [t] st = some (.error (blockedMsg d lbl t), st1) := by
  simp only [checkTargets]
  rw [hw]

theorem checkTargets_single_error (store : Store) (d lbl t : String)
    (st st1 : GateState) (e : String)
    (hw : isIdWithinAllowlist store t st.ids st = some (.error e, st1)) :
    checkTargets store d lbl [t] st = some (.error e, st1) := by
  simp only [checkTargets]
  rw [hw]

theorem assertInternal_single_allowed (store : Store) (t d lbl : String)
    (st : GateState) (hEn : st.enabled = true) (hErr : st.error = none)
    (hIds : ¬ st.ids.length = 0)
    (hRootSkip : st.rootResolved = true ∨ ¬ "root" ∈ st.ids)
    (ht : t ∈ st.ids) (htne : ¬ t = "") :
    assertWriteAccessInternal store [t] d lbl st = some (.ok (), st) := by
  rw [assertInternal_steps store [t] d lbl st st hEn hErr hIds
    (ensureRoot_skip store st hRootSkip)]
  exact checkTargets_single_true store d lbl t st st
    (isIdWithin_head_mem store st.ids t st htne ht)

theorem assertInternal_single_error (store : Store) (t d lbl : String)
    (st st1 : GateState) (e : String) (hEn : st.enabled = true)
    (hErr : st.error = none) (hIds : ¬ st.ids.length = 0)
    (hRootSkip : st.rootResolved = true ∨ ¬ "root" ∈ st.ids)
    (ht : ¬ t ∈ st.ids) (htne : ¬ t = "")
    (hg : getFileNode store t st = (.error e, st1)) :
    assertWriteAccessInternal store [t] d lbl st = some (.error e, st1) := by
  rw [assertInternal_steps store [t] d lbl st st hEn hErr hIds
    (ensureRoot_skip store st hRootSkip)]
  exact checkTargets_single_error store d lbl t st st1 e
    (isIdWithin_head_error store st.ids t st st1 e htne ht hg)

/-- Claim C9: a remote lookup failure during an assertion turns into a
single rejection of the whole assertion and is not retried: a 404 (ID
absent from the store) rejects with the message naming the missing ID, a
403 rejects with the message naming the ID lacking access, and any other
remote failure rejects with a generic verification message that carries
the remote error text (an empty remote text falls back to
`"Unknown error"`).  The final state shows exactly one remote lookup was
issued (`lookups` grew by `[T]` only) and the cache is unchanged. -/
theorem remote_failure_classification (store : Store) (st : GateState)
    (T d : String) (hEn : st.enabled = true) (hErr : st.error = none)
    (hIds : ¬ st.ids.length = 0)
    (hRootSkip : st.rootResolved = true ∨ ¬ "root" ∈ st.ids)
    (hT : ¬ T ∈ st.ids) (hTne : ¬ T = "") (hc : alistGet st.cache T = none) :
    (storeGet store T = none →
      assertWriteAccessForFile store T d st =
        some (.error (notFoundMsg T), { st with lookups := st.lookups ++ [T] })) ∧
    (storeGet store T = some .permissionDenied →
      assertWriteAccessForFile store T d st =
        some (.error (permissionMsg T), { st with lookups := st.lookups ++ [T] })) ∧
    (∀ m, storeGet store T = some (.failure m) →
      assertWriteAccessForFile store T d st =
        some (.error (otherFailureMsg T m), { st with lookups := st.lookups ++ [T] })) := by
  refine ⟨?_, ?_, ?_⟩
  · intro hs
    exact assertInternal_single_error store T d "file" st _ _ hEn hErr hIds hRootSkip
      hT hTne (getFileNode_miss_notFound store T st hc hs)
  · intro hs
    exact assertInternal_single_error store T d "file" st _ _ hEn hErr hIds hRootSkip
      hT hTne (getFileNode_miss_denied store T st hc hs)
  · intro m hs
    exact assertInternal_single_error store T d "file" st _ _ hEn hErr hIds hRootSkip
      hT hTne (getFileNode_miss_failure store T st m hc hs)

/-- Witness for C9 at a store holding a 403 entry for the target. -/
theorem remote_failure_classification_witness :
    storeGet [("Q", DriveResp.permissionDenied)] "Q" = some .permissionDenied ∧
    assertWriteAccessForFile [("Q", DriveResp.permissionDenied)] "Q" "update doc"
      (GateState.mk true ["F1"] [] none true [] []) =
      some (.error (permissionMsg "Q"),
        GateState.mk true ["F1"] [] none true [] ["Q"]) :=
  ⟨rfl, by
    have h := (remote_failure_classification [("Q", DriveResp.permissionDenied)]
      (GateState.mk true ["F1"] [] none true [] []) "Q" "update doc"
      rfl rfl (by decide) (Or.inl rfl) (by decide) (by decide) rfl).2.1 rfl
    simpa using h⟩

/-- Claim C10: only successful lookups populate the parent cache.  A
failed lookup (404, 403 or any other failure) leaves the cache untouched
and only appends the ID to the lookup log, so a second `getFileNode` for
the same ID issues a fresh remote lookup (and fails the same way); a
successful lookup stores the node under the requested ID and, when the
canonical ID is truthy and different, under the canonical ID as well. -/
theorem cache_only_on_success (store : Store) (st : GateState) (k : String)
    (hc : alistGet st.cache k = none) :
    ((∀ i p, ¬ storeGet store k = some (.ok i p)) →
      ∃ e, getFileNode store k st =
          (.error e, { st with lookups := st.lookups ++ [k] }) ∧
        getFileNode store k { st with lookups := st.lookups ++ [k] } =
          (.error e, { st with lookups := st.lookups ++ [k] ++ [k] })) ∧
    (∀ i p, storeGet store k = some (.ok i p) →
      ∃ node st1, getFileNode store k st = (.ok node, st1) ∧
        st1.lookups = st.lookups ++ [k] ∧
        alistGet st1.cache k = some node ∧
        (¬ node.id = "" → ¬ node.id = k → alistGet st1.cache node.id = some node)) := by
  constructor
  · intro hfail
    rcases hs : storeGet store k with _ | resp
    · refine ⟨notFoundMsg k, getFileNode_miss_notFound store k st hc hs, ?_⟩
      exact getFileNode_miss_notFound store k _ hc hs
    · rcases resp with ⟨i, p⟩ | _ | m
      · exact absurd hs (hfail i p)
      · refine ⟨permissionMsg k, getFileNode_miss_denied store k st hc hs, ?_⟩
        exact getFileNode_miss_denied store k _ hc hs
      · refine ⟨otherFailureMsg k m, getFileNode_miss_failure store k st m hc hs, ?_⟩
        exact getFileNode_miss_failure store k _ m hc hs
  · intro i p hs
    refine ⟨FileNode.mk (jsOr i k) (p.getD []), _,
      getFileNode_miss_ok store k st i p hc hs, rfl, ?_, ?_⟩
    · by_cases hguard : jsOr i k ≠ "" ∧ jsOr i k ≠ k
      · show alistGet (if jsOr i k ≠ "" ∧ jsOr i k ≠ k then _ else _) k = _
        rw [if_pos hguard, alistGet_mapSet, if_neg (fun h => hguard.2 h.symm),
          alistGet_mapSet, if_pos rfl]
      · show alistGet (if jsOr i k ≠ "" ∧ jsOr i k ≠ k then _ else _) k = _
        rw [if_neg hguard, alistGet_mapSet, if_pos rfl]
    · intro hne hnek
      show alistGet (if jsOr i k ≠ "" ∧ jsOr i k ≠ k then _ else _) (jsOr i k) = _
      rw [if_pos ⟨hne, hnek⟩, alistGet_mapSet, if_pos rfl]

/-- Witness for C10: a 404 target is not cached and is fetched again; a
successful target ends up cached. -/
theorem cache_only_on_success_witness :
    alistGet (GateState.mk true ["F1"] [] none true [] []).cache "Q" = none ∧
    (∃ e, getFileNode [("K", DriveResp.ok none (some []))] "Q"
        (GateState.mk true ["F1"] [] none true [] []) =
        (.error e, GateState.mk true ["F1"] [] none true [] ["Q"]) ∧
      getFileNode [("K", DriveResp.ok none (some []))] "Q"
        (GateState.mk true ["F1"] [] none true [] ["Q"]) =
        (.error e, GateState.mk true ["F1"] [] none true [] ["Q", "Q"])) := by
  constructor
  · rfl
  · have h := (cache_only_on_success [("K", DriveResp.ok none (some []))]
      (GateState.mk true ["F1"] [] none true [] []) "Q" rfl).1
      (by intro i p hcontra; cases hcontra)
    simpa using h

theorem bfsAux_step_continue (store : Store) (L : List String) (fuel : Nat)
    (c : String) (q seen : List String) (st : GateState) (node : FileNode)
    (st1 : GateState) (h1 : ¬ (c = "" ∨ c ∈ seen)) (h2 : ¬ c ∈ L)
    (hg : getFileNode store c st = (.ok node, st1)) (h3 : ¬ node.id ∈ L) :
    bfsAux store L (fuel + 1) (c :: q) seen st =
      bfsAux store L fuel (q ++ node.parents.filter (fun p => ¬ p ∈ c :: seen))
        (c :: seen) st1 := by
  simp only [bfsAux, if_neg h1, if_neg h2, hg, if_neg h3]

/-- Claim C5: the ancestor traversal always terminates with a definite
answer (the chosen fuel never runs out, on any finite store, from any
state), it looks up each distinct ID at most once (the lookup log grows
by a duplicate-free block), and on the two-node parent cycle
`A ↔ B` with neither ID allowlisted, `assertWriteAccessForFile A`
terminates and rejects with the allowlist violation. -/
theorem traversal_terminates_and_cycle_rejects :
    (∀ (store : Store) (L : List String) (fileId : String) (st : GateState),
      isIdWithinAllowlist store fileId L st ≠ none) ∧
    (∀ (store : Store) (L : List String) (fileId : String) (st : GateState)
      (r : Except String Bool) (st' : GateState),
      isIdWithinAllowlist store fileId L st = some (r, st') →
      ∃ Δ, st'.lookups = st.lookups ++ Δ ∧ Δ.Nodup) ∧
    (∀ (store : Store) (st : GateState) (A B d : String),
      st.enabled = true → st.error = none → ¬ "root" ∈ st.ids →
      ¬ st.ids.length = 0 → ¬ A ∈ st.ids → ¬ B ∈ st.ids →
      ¬ A = "" → ¬ B = "" → ¬ B = A → st.cache = [] →
      storeGet store A = some (.ok none (some [B])) →
      storeGet store B = some (.ok none (some [A])) →
      ∃ st', assertWriteAccessForFile store A d st =
        some (.error (blockedMsg d "file" A), st')) := by
  refine ⟨isIdWithinAllowlist_total, ?_, ?_⟩
  · intro store L fileId st r st' h
    rcases bfsAux_frame store L _ _ _ _ _ _ h with
      ⟨_, _, _, _, _, _, Δ, hl, hnod, _⟩
    exact ⟨Δ, hl, hnod⟩
  · intro store st A B d hEn hErr hRoot hIds hA hB hAne hBne hBA hCache
      hsA hsB
    have hcA : alistGet st.cache A = none := by rw [hCache]; rfl
    have hgA := getFileNode_miss_ok_plain store A st (some [B]) hcA hsA
    have hcB : alistGet ({ st with
        lookups := st.lookups ++ [A],
        cache := mapSet st.cache A (FileNode.mk A [B]) } : GateState).cache B = none := by
      show alistGet (mapSet st.cache A (FileNode.mk A [B])) B = none
      rw [alistGet_mapSet, if_neg hBA, hCache]
      rfl
    have hgB := getFileNode_miss_ok_plain store B
      ({ st with
        lookups := st.lookups ++ [A],
        cache := mapSet st.cache A (FileNode.mk A [B]) }) (some [A]) hcB hsB
    simp only [Option.getD_some] at hgA hgB
    have hfA : ¬ (A = "" ∨ A ∈ ([] : List String)) := by simp [hAne]
    have hfB : ¬ (B = "" ∨ B ∈ [A]) := by
      simp only [List.mem_singleton]
      intro hcon
      rcases hcon with hcon | hcon
      · exact hBne hcon
      · exact hBA hcon
    have hbfs : bfsAux store st.ids 2 [A] [] st =
        some (.ok false, { st with
          lookups := st.lookups ++ [A] ++ [B],
          cache := mapSet (mapSet st.cache A (FileNode.mk A [B])) B
            (FileNode.mk B [A]) }) := by
      show bfsAux store st.ids (1 + 1) [A] [] st = _
      rw [bfsAux_step_continue store st.ids 1 A [] [] st (FileNode.mk A [B]) _
        hfA hA hgA hA]
      have hfilter : ([] ++ (FileNode.mk A [B]).parents.filter
          (fun p => ¬ p ∈ A :: ([] : List String))) = [B] := by
        simp [hBA]
      rw [hfilter]
      show bfsAux store st.ids (0 + 1) [B] [A] _ = _
      rw [bfsAux_step_continue store st.ids 0 B [] [A] _ (FileNode.mk B [A]) _
        hfB hB hgB hB]
      have hfilter2 : ([] ++ (FileNode.mk B [A]).parents.filter
          (fun p => ¬ p ∈ B :: [A])) = [] := by
        simp
      rw [hfilter2]
      rfl
    have h2le : 2 ≤ suffFuel store st.cache [A] := by
      simp only [suffFuel, List.length_cons, List.length_nil]
      omega
    have hwithin : isIdWithinAllowlist store A st.ids st =
        some (.ok false, { st with
          lookups := st.lookups ++ [A] ++ [B],
          cache := mapSet (mapSet st.cache A (FileNode.mk A [B])) B
            (FileNode.mk B [A]) }) := by
      unfold isIdWithinAllowlist
      have hm := bfsAux_mono store st.ids (suffFuel store st.cache [A] - 2)
        2 [A] [] st _ hbfs
      rw [show 2 + (suffFuel store st.cache [A] - 2) =
        suffFuel store st.cache [A] by omega] at hm
      exact hm
    refine ⟨{ st with
      cache := mapSet (mapSet st.cache A (FileNode.mk A [B])) B (FileNode.mk B [A]),
      lookups := st.lookups ++ [A] ++ [B] }, ?_⟩
    unfold assertWriteAccessForFile
    rw [assertInternal_steps store [A] d "file" st st hEn hErr hIds
      (ensureRoot_skip store st (Or.inr hRoot))]
    exact checkTargets_single_false store d "file" A st _ hwithin

/-- Witness for C5's cycle scenario at a concrete two-node cyclic store. -/
theorem traversal_terminates_and_cycle_rejects_witness :
    storeGet [("A", DriveResp.ok none (some ["B"])),
      ("B", DriveResp.ok none (some ["A"]))] "A" =
      some (.ok none (some ["B"])) ∧
    ∃ st', assertWriteAccessForFile
      [("A", DriveResp.ok none (some ["B"])), ("B", DriveResp.ok none (some ["A"]))]
      "A" "move file" (GateState.mk true ["F1"] [] none false [] []) =
      some (.error (blockedMsg "move file" "file" "A"), st') :=
  ⟨rfl, traversal_terminates_and_cycle_rejects.2.2
    [("A", DriveResp.ok none (some ["B"])), ("B", DriveResp.ok none (some ["A"]))]
    (GateState.mk true ["F1"] [] none false [] []) "A" "B" "move file"
    rfl rfl (by decide) (by decide) (by decide) (by decide)
    (by decide) (by decide) (by decide) rfl rfl rfl⟩

theorem ensureRoot_fetch (store : Store) (st : GateState) (node : FileNode)
    (st1 : GateState)
    (hcond : ¬ (st.rootResolved = true ∨ ¬ "root" ∈ st.ids))
    (hg : getFileNode store "root" st = (.ok node, st1)) :
    ensureRootResolved store st =
      (.ok (), { (if node.id ≠ "" ∧ node.id ≠ "root" then
        { st1 with ids := addId st1.ids node.id } else st1) with
        rootResolved := true }) := by
  unfold ensureRootResolved
  rw [if_neg (by simpa using hcond), hg]

/-- Claim C6: when the allowlist contains the literal value `"root"`, an
assertion for an absent parent (the implicit root) succeeds, and a
subsequent assertion for the canonical root ID `C` that the store returns
for the alias succeeds too — the one-time normalization adds `C` to the
ID set when it differs from `"root"`.  Both calls run in the same fresh
process. -/
theorem root_alias_equivalence (store : Store) (st : GateState)
    (C d1 d2 : String) (p : Option (List String))
    (hEn : st.enabled = true) (hErr : st.error = none)
    (hRoot : "root" ∈ st.ids) (hFresh : st.rootResolved = false)
    (hCache : st.cache = [])
    (hs : storeGet store "root" = some (.ok (some C) p)) (hCne : ¬ C = "") :
    ∃ st1 st2,
      assertWriteAccessForParent store none d1 st = some (.ok (), st1) ∧
      assertWriteAccessForFile store C d2 st1 = some (.ok (), st2) ∧
      C ∈ st1.ids := by
  have hIds : ¬ st.ids.length = 0 := by
    have hne : st.ids ≠ [] := List.ne_nil_of_mem hRoot
    simpa [List.length_eq_zero] using hne
  have hcRoot : alistGet st.cache "root" = none := by rw [hCache]; rfl
  have hg := getFileNode_miss_ok store "root" st (some C) p hcRoot hs
  have hj : jsOr (some C) "root" = C := by simp [jsOr, hCne]
  rw [hj] at hg
  have hcond : ¬ (st.rootResolved = true ∨ ¬ "root" ∈ st.ids) := by
    simp [hFresh, hRoot]
  by_cases hCr : C = "root"
  · subst hCr
    rw [if_neg (by simp)] at hg
    have hr := ensureRoot_fetch store st (FileNode.mk "root" (p.getD [])) _ hcond hg
    rw [if_neg (by simp)] at hr
    refine ⟨{ st with
        rootResolved := true,
        cache := mapSet st.cache "root" (FileNode.mk "root" (p.getD [])),
        lookups := st.lookups ++ ["root"] },
      { st with
        rootResolved := true,
        cache := mapSet st.cache "root" (FileNode.mk "root" (p.getD [])),
        lookups := st.lookups ++ ["root"] }, ?_, ?_, ?_⟩
    · unfold assertWriteAccessForParent
      rw [show (none : Option String).getD "root" = "root" from rfl]
      rw [assertInternal_steps store ["root"] d1 "parent" st _ hEn hErr hIds hr]
      exact checkTargets_single_true store d1 "parent" "root" _ _
        (isIdWithin_head_mem store _ "root" _ (by decide) hRoot)
    · unfold assertWriteAccessForFile
      exact assertInternal_single_allowed store "root" d2 "file" _ hEn hErr hIds
        (Or.inl rfl) hRoot (by decide)
    · exact hRoot
  · rw [if_pos ⟨hCne, hCr⟩] at hg
    have hr := ensureRoot_fetch store st (FileNode.mk C (p.getD [])) _ hcond hg
    rw [if_pos ⟨hCne, hCr⟩] at hr
    refine ⟨{ st with
        ids := addId st.ids C,
        rootResolved := true,
        cache := mapSet (mapSet st.cache "root" (FileNode.mk C (p.getD []))) C
          (FileNode.mk C (p.getD [])),
        lookups := st.lookups ++ ["root"] },
      { st with
        ids := addId st.ids C,
        rootResolved := true,
        cache := mapSet (mapSet st.cache "root" (FileNode.mk C (p.getD []))) C
          (FileNode.mk C (p.getD [])),
        lookups := st.lookups ++ ["root"] }, ?_, ?_, ?_⟩
    · unfold assertWriteAccessForParent
      rw [show (none : Option String).getD "root" = "root" from rfl]
      rw [assertInternal_steps store ["root"] d1 "parent" st _ hEn hErr hIds hr]
      exact checkTargets_single_true store d1 "parent" "root" _ _
        (isIdWithin_head_mem store _ "root" _ (by decide)
          (mem_addId st.ids "root" C hRoot))
    · unfold assertWriteAccessForFile
      exact assertInternal_single_allowed store C d2 "file" _ hEn hErr
        (by
          have hne : addId st.ids C ≠ [] :=
            List.ne_nil_of_mem (self_mem_addId st.ids C)
          simpa [List.length_eq_zero] using hne)
        (Or.inl rfl) (self_mem_addId st.ids C) hCne
    · exact self_mem_addId st.ids C

/-- Witness for C6: the store maps the alias to canonical ID `"R0"`. -/
theorem root_alias_equivalence_witness :
    storeGet [("root", DriveResp.ok (some "R0") (some []))] "root" =
      some (.ok (some "R0") (some [])) ∧
    ∃ st1 st2,
      assertWriteAccessForParent [("root", DriveResp.ok (some "R0") (some []))]
        none "create doc" (GateState.mk true ["root"] [] none false [] []) =
        some (.ok (), st1) ∧
      assertWriteAccessForFile [("root", DriveResp.ok (some "R0") (some []))]
        "R0" "create doc2" st1 = some (.ok (), st2) ∧
      "R0" ∈ st1.ids :=
  ⟨rfl, root_alias_equivalence [("root", DriveResp.ok (some "R0") (some []))]
    (GateState.mk true ["root"] [] none false [] []) "R0" "create doc" "create doc2"
    (some []) rfl rfl (by decide) rfl rfl rfl (by decide)⟩

/-- The value `getFileNode` computes for an ID, independent of the cache:
on any path that reaches the remote store this is exactly the returned
node or the classified error. -/
def resolvePure (store : Store) (k : String) : Except String FileNode :=
  match storeGet store k with
  | some (.ok i p) => .ok (FileNode.mk (jsOr i k) (p.getD []))
  | some .permissionDenied => .error (permissionMsg k)
  | some (.failure m) => .error (otherFailureMsg k m)
  | none => .error (notFoundMsg k)

/-- Cache coherence: every cached node is exactly what the store answers
for its key.  It holds for the empty cache and is preserved by every
lookup on an alias-free store. -/
def CacheGood (store : Store) (cache : List (String × FileNode)) : Prop :=
  ∀ kv ∈ cache, resolvePure store kv.1 = .ok kv.2

/-- An alias-free store returns the requested ID as the canonical ID
(missing or empty canonical IDs fall back to the requested one). -/
def NoAliasStore (store : Store) : Prop :=
  ∀ kv ∈ store, ∀ i p, kv.2 = DriveResp.ok i p → jsOr i kv.1 = kv.1

instance {ε α : Type} [DecidableEq ε] [DecidableEq α] :
    DecidableEq (Except ε α) := fun a b =>
  match a, b with
  | .error x, .error y =>
    if h : x = y then .isTrue (by rw [h])
    else .isFalse (by intro hc; cases hc; exact h rfl)
  | .error _, .ok _ => .isFalse (by intro hc; cases hc)
  | .ok _, .error _ => .isFalse (by intro hc; cases hc)
  | .ok x, .ok y =>
    if h : x = y then .isTrue (by rw [h])
    else .isFalse (by intro hc; cases hc; exact h rfl)

instance (store : Store) (cache : List (String × FileNode)) :
    Decidable (CacheGood store cache) :=
  List.decidableBAll _ cache

/-- Executable form of `NoAliasStore`. -/
def noAliasB (store : Store) : Bool :=
  store.all (fun kv => match kv.2 with
    | DriveResp.ok i _ => jsOr i kv.1 = kv.1
    | _ => true)

theorem noAliasB_iff (store : Store) :
    noAliasB store = true ↔ NoAliasStore store := by
  unfold noAliasB NoAliasStore
  rw [List.all_eq_true]
  constructor
  · intro h kv hm i p hip
    have h2 := h kv hm
    rw [hip] at h2
    simpa using h2
  · intro h kv hm
    rcases hkv : kv.2 with ⟨i, p⟩ | _ | m
    · simpa using h kv hm i p hkv
    · rfl
    · rfl

instance (store : Store) : Decidable (NoAliasStore store) :=
  decidable_of_iff _ (noAliasB_iff store)

/-- Cache-free mirror of `bfsAux`: the traversal computed over
`resolvePure` only. -/
def pureBfsAux (store : Store) (allowIds : List String) :
    Nat → List String → List String → Option (Except String Bool)
  | _, [], _ => some (.ok false)
  | 0, _ :: _, _ => none
  | fuel + 1, c :: q, seen =>
    if c = "" ∨ c ∈ seen then pureBfsAux store allowIds fuel q seen
    else
      if c ∈ allowIds then some (.ok true)
      else
        match resolvePure store c with
        | .error e => some (.error e)
        | .ok node =>
          if node.id ∈ allowIds then some (.ok true)
          else
            pureBfsAux store allowIds fuel
              (q ++ node.parents.filter (fun p => ¬ p ∈ c :: seen)) (c :: seen)

theorem resolvePure_id (store : Store) (k : String) (n : FileNode)
    (hA : NoAliasStore store) (h : resolvePure store k = .ok n) : n.id = k := by
  unfold resolvePure at h
  rcases hs : storeGet store k with _ | resp
  · rw [hs] at h; cases h
  · rcases resp with ⟨i, p⟩ | _ | m
    · rw [hs] at h
      cases h
      exact hA (k, DriveResp.ok i p) (alistGet_mem store k _ hs) i p rfl
    · rw [hs] at h; cases h
    · rw [hs] at h; cases h

theorem getFileNode_pure (store : Store) (k : String) (st st1 : GateState)
    (res : Except String FileNode) (hCG : CacheGood store st.cache)
    (hg : getFileNode store k st = (res, st1)) :
    res = resolvePure store k ∧
      (NoAliasStore store → CacheGood store st1.cache) := by
  unfold getFileNode at hg
  rcases hc : alistGet st.cache k with _ | cached
  · rw [hc] at hg
    rcases hs : storeGet store k with _ | resp
    · rw [hs] at hg
      cases hg
      refine ⟨?_, fun _ => hCG⟩
      unfold resolvePure
      rw [hs]
    · rcases resp with ⟨i, p⟩ | _ | m
      · rw [hs] at hg
        cases hg
        have hres : resolvePure store k = .ok (FileNode.mk (jsOr i k) (p.getD [])) := by
          unfold resolvePure
          rw [hs]
        refine ⟨hres.symm, ?_⟩
        intro hA
        have hid : jsOr i k = k :=
          hA (k, DriveResp.ok i p) (alistGet_mem store k _ hs) i p rfl
        show CacheGood store (if jsOr i k ≠ "" ∧ jsOr i k ≠ k then _ else
          mapSet st.cache k (FileNode.mk (jsOr i k) (p.getD [])))
        rw [if_neg (fun hcontra => hcontra.2 hid)]
        intro kv hkv
        rcases List.mem_cons.mp hkv with h | h
        · subst h
          exact hres
        · exact hCG kv h
      · rw [hs] at hg
        cases hg
        refine ⟨?_, fun _ => hCG⟩
        unfold resolvePure
        rw [hs]
      · rw [hs] at hg
        cases hg
        refine ⟨?_, fun _ => hCG⟩
        unfold resolvePure
        rw [hs]
  · rw [hc] at hg
    cases hg
    refine ⟨?_, fun _ => hCG⟩
    exact (hCG (k, cached) (alistGet_mem st.cache k cached hc)).symm

theorem bfsAux_pure (store : Store) (L : List String) (hA : NoAliasStore store) :
    ∀ (fuel : Nat) (q seen : List String) (st : GateState),
      CacheGood store st.cache →
      (Option.map Prod.fst (bfsAux store L fuel q seen st) =
        pureBfsAux store L fuel q seen) ∧
      (∀ r st', bfsAux store L fuel q seen st = some (r, st') →
        CacheGood store st'.cache) := by
  intro fuel
  induction fuel with
  | zero =>
    intro q seen st hCG
    match q with
    | [] =>
      refine ⟨rfl, ?_⟩
      intro r st' h
      have h2 : some ((Except.ok false : Except String Bool), st) = some (r, st') := h
      cases h2
      exact hCG
    | c :: cs => exact ⟨rfl, fun r st' h => by simp [bfsAux] at h⟩
  | succ n ih =>
    intro q seen st hCG
    match q with
    | [] =>
      refine ⟨rfl, ?_⟩
      intro r st' h
      have h2 : some ((Except.ok false : Except String Bool), st) = some (r, st') := h
      cases h2
      exact hCG
    | c :: cs =>
      by_cases h1 : c = "" ∨ c ∈ seen
      · simp only [bfsAux, pureBfsAux, if_pos h1]
        exact ih cs seen st hCG
      · by_cases h2 : c ∈ L
        · simp only [bfsAux, pureBfsAux, if_neg h1, if_pos h2]
          refine ⟨rfl, ?_⟩
          intro r st' h
          cases h
          exact hCG
        · simp only [bfsAux, pureBfsAux, if_neg h1, if_neg h2]
          rcases hg : getFileNode store c st with ⟨res, st1⟩
          have hp := getFileNode_pure store c st st1 res hCG hg
          have hCG1 : CacheGood store st1.cache := hp.2 hA
          rw [← hp.1]
          cases res with
          | error e =>
            refine ⟨rfl, ?_⟩
            intro r st' h
            cases h
            exact hCG1
          | ok node =>
            by_cases h3 : node.id ∈ L
            · simp only [if_pos h3]
              refine ⟨rfl, ?_⟩
              intro r st' h
              cases h
              exact hCG1
            · simp only [if_neg h3]
              exact ih _ _ _ hCG1

theorem pureBfsAux_mono (store : Store) (L : List String) (k : Nat) :
    ∀ (fuel : Nat) (q seen : List String) (r : Except String Bool),
      pureBfsAux store L fuel q seen = some r →
      pureBfsAux store L (fuel + k) q seen = some r := by
  intro fuel
  induction fuel with
  | zero =>
    intro q seen r h
    match q with
    | [] => simpa [pureBfsAux] using h
    | c :: cs => simp [pureBfsAux] at h
  | succ n ih =>
    intro q seen r h
    match q with
    | [] => simpa [pureBfsAux] using h
    | c :: cs =>
      rw [show n + 1 + k = (n + k) + 1 by omega]
      by_cases h1 : c = "" ∨ c ∈ seen
      · simp only [pureBfsAux, if_pos h1] at h ⊢
        exact ih _ _ _ h
      · by_cases h2 : c ∈ L
        · simpa only [pureBfsAux, if_neg h1, if_pos h2] using h
        · simp only [pureBfsAux, if_neg h1, if_neg h2] at h ⊢
          rcases hres : resolvePure store c with e | node
          · rw [hres] at h
            exact h
          · rw [hres] at h
            by_cases h3 : node.id ∈ L
            · simpa only [if_pos h3] using h
            · simp only [if_neg h3] at h ⊢
              exact ih _ _ _ h

/-- The BFS verdict for a single target over the store alone. -/
def pureWithin (store : Store) (L : List String) (t : String) :
    Option (Except String Bool) :=
  pureBfsAux store L (suffFuel store [] [t]) [t] []

theorem pure_stable (store : Store) (L : List String) (t : String)
    (hA : NoAliasStore store) (f : Nat) (r : Except String Bool)
    (h : pureBfsAux store L f [t] [] = some r) :
    pureWithin store L t = some r := by
  have hst : CacheGood store (GateState.mk true L [] none false [] []).cache := by
    intro kv hkv
    simp at hkv
  have hlink := (bfsAux_pure store L hA (suffFuel store [] [t]) [t] []
    (GateState.mk true L [] none false [] []) hst).1
  have htot := isIdWithinAllowlist_total store L t
    (GateState.mk true L [] none false [] [])
  rcases hx : bfsAux store L (suffFuel store [] [t]) [t] []
      (GateState.mk true L [] none false [] []) with _ | ⟨r0, st'⟩
  · exact absurd hx htot
  · have hpw : pureWithin store L t = some r0 := by
      unfold pureWithin
      rw [← hlink, hx]
      rfl
    have h1 := pureBfsAux_mono store L (max f (suffFuel store [] [t]) - f)
      f [t] [] r h
    have h2 := pureBfsAux_mono store L
      (max f (suffFuel store [] [t]) - suffFuel store [] [t])
      (suffFuel store [] [t]) [t] [] r0
      (by unfold pureWithin at hpw; exact hpw)
    rw [show f + (max f (suffFuel store [] [t]) - f) =
      max f (suffFuel store [] [t]) by omega] at h1
    rw [show suffFuel store [] [t] +
      (max f (suffFuel store [] [t]) - suffFuel store [] [t]) =
      max f (suffFuel store [] [t]) by omega] at h2
    rw [hpw]
    exact h2.symm.trans h1

theorem isIdWithin_pure (store : Store) (L : List String) (t : String)
    (st : GateState) (hA : NoAliasStore store) (hCG : CacheGood store st.cache) :
    ∀ r st', isIdWithinAllowlist store t L st = some (r, st') →
      pureWithin store L t = some r ∧ CacheGood store st'.cache := by
  intro r st' h
  have hlink := bfsAux_pure store L hA (suffFuel store st.cache [t]) [t] [] st hCG
  refine ⟨?_, hlink.2 r st' h⟩
  have hmap := hlink.1
  have h' : bfsAux store L (suffFuel store st.cache [t]) [t] [] st =
      some (r, st') := h
  rw [h'] at hmap
  exact pure_stable store L t hA _ r (by rw [← hmap]; rfl)

/-- Cache-free mirror of `checkTargets`. -/
def pureCheck (store : Store) (ids : List String) (d lbl : String) :
    List String → Option (Except String Unit)
  | [] => some (.ok ())
  | t :: ts =>
    match pureWithin store ids t with
    | none => none
    | some (.error e) => some (.error e)
    | some (.ok true) => pureCheck store ids d lbl ts
    | some (.ok false) => some (.error (blockedMsg d lbl t))

theorem checkTargets_pure (store : Store) (d lbl : String)
    (hA : NoAliasStore store) :
    ∀ (ts : List String) (st : GateState), CacheGood store st.cache →
      ∀ r st', checkTargets store d lbl ts st = some (r, st') →
        some r = pureCheck store st.ids d lbl ts ∧
        CacheGood store st'.cache := by
  intro ts
  induction ts with
  | nil =>
    intro st hCG r st' h
    have h2 : some ((Except.ok () : Except String Unit), st) = some (r, st') := h
    cases h2
    exact ⟨rfl, hCG⟩
  | cons t ts ih =>
    intro st hCG r st' h
    simp only [checkTargets] at h
    rcases hw : isIdWithinAllowlist store t st.ids st with _ | ⟨res, st1⟩
    · rw [hw] at h; cases h
    · rw [hw] at h
      have hp := isIdWithin_pure store st.ids t st hA hCG res st1 hw
      have hpw : pureWithin store st.ids t = some res := hp.1
      have hCG1 := hp.2
      have hfr := bfsAux_frame store st.ids _ _ _ _ _ _ hw
      have hids1 : st1.ids = st.ids := hfr.2.1
      cases res with
      | error e =>
        have h2 : some ((Except.error e : Except String Unit), st1) =
            some (r, st') := h
        cases h2
        refine ⟨?_, hCG1⟩
        simp only [pureCheck, hpw]
      | ok b =>
        cases b
        · have h2 : some ((Except.error (blockedMsg d lbl t) : Except String Unit),
              st1) = some (r, st') := h
          cases h2
          refine ⟨?_, hCG1⟩
          simp only [pureCheck, hpw]
        · have hrec := ih st1 hCG1 r st' h
          refine ⟨?_, hrec.2⟩
          simp only [pureCheck, hpw]
          rw [← hids1]
          exact hrec.1

/-- Cache-free mirror of `assertWriteAccessInternal` over the immutable
configuration fields (for an alias-free store, whose root normalization
never changes the ID set). -/
def pureAssert (store : Store) (targets : List String) (d lbl : String)
    (enabled : Bool) (ids sources : List String) (error : Option String)
    (rootResolved : Bool) : Option (Except String Unit) :=
  if enabled = false then some (.ok ())
  else
    match error with
    | some err => some (.error (configErrorMsg sources err))
    | none =>
      if ids.length = 0 then some (.error (emptyAllowlistMsg sources))
      else
        if rootResolved = true ∨ ¬ "root" ∈ ids then
          pureCheck store ids d lbl targets
        else
          match resolvePure store "root" with
          | .error e => some (.error e)
          | .ok _ => pureCheck store ids d lbl targets

theorem assertInternal_pure (store : Store) (ts : List String)
    (d lbl : String) (st : GateState) (hA : NoAliasStore store)
    (hCG : CacheGood store st.cache) (r : Except String Unit) (st' : GateState)
    (h : assertWriteAccessInternal store ts d lbl st = some (r, st')) :
    some r = pureAssert store ts d lbl st.enabled st.ids st.sources
      st.error st.rootResolved ∧
    CacheGood store st'.cache ∧ st'.ids = st.ids ∧ st'.enabled = st.enabled ∧
    st'.sources = st.sources ∧ st'.error = st.error ∧
    (st'.rootResolved = st.rootResolved ∨
      (st'.rootResolved = true ∧ ∃ n, resolvePure store "root" = .ok n)) := by
  unfold assertWriteAccessInternal at h
  unfold pureAssert
  by_cases hEn : st.enabled = false
  · rw [if_pos hEn] at h
    cases h
    rw [if_pos hEn]
    exact ⟨rfl, hCG, rfl, rfl, rfl, rfl, Or.inl rfl⟩
  · rw [if_neg hEn] at h
    rw [if_neg hEn]
    rcases hErr : st.error with _ | e
    · rw [hErr] at h
      by_cases hIds : st.ids.length = 0
      · rw [if_pos hIds] at h
        cases h
        rw [if_pos hIds]
        exact ⟨rfl, hCG, rfl, rfl, rfl, hErr, Or.inl rfl⟩
      · rw [if_neg hIds] at h
        rw [if_neg hIds]
        by_cases hRoot : st.rootResolved = true ∨ ¬ "root" ∈ st.ids
        · rw [if_pos hRoot]
          rw [ensureRoot_skip store st hRoot] at h
          have hc := checkTargets_pure store d lbl hA ts st hCG r st' h
          have hfr := checkTargets_frame store d lbl ts st r st' h
          exact ⟨hc.1, hc.2, hfr.2.1, hfr.1, hfr.2.2.1, hfr.2.2.2.1.trans hErr,
            Or.inl hfr.2.2.2.2.1⟩
        · rw [if_neg hRoot]
          rcases hg : getFileNode store "root" st with ⟨gres, stg⟩
          have hgp := getFileNode_pure store "root" st stg gres hCG hg
          have hCGg : CacheGood store stg.cache := hgp.2 hA
          have hgfr := getFileNode_frame store "root" st stg gres hg
          cases gres with
          | error e =>
            have hre : ensureRootResolved store st = (.error e, stg) := by
              unfold ensureRootResolved
              rw [if_neg (by simpa using hRoot), hg]
            rw [hre] at h
            have h2 : some ((Except.error e : Except String Unit), stg) =
                some (r, st') := h
            cases h2
            refine ⟨?_, hCGg, hgfr.2.1, hgfr.1, hgfr.2.2.1,
              hgfr.2.2.2.1.trans hErr, Or.inl hgfr.2.2.2.2.1⟩
            rw [← hgp.1]
          | ok rootNode =>
            have hid : rootNode.id = "root" :=
              resolvePure_id store "root" rootNode hA hgp.1.symm
            have hguard : ¬ (rootNode.id ≠ "" ∧ rootNode.id ≠ "root") := by
              intro hcontra
              exact hcontra.2 hid
            have hre := ensureRoot_fetch store st rootNode stg hRoot hg
            rw [if_neg hguard] at hre
            rw [hre] at h
            have h2 : checkTargets store d lbl ts
                ({ stg with rootResolved := true }) = some (r, st') := h
            have hck := checkTargets_pure store d lbl hA ts
              ({ stg with rootResolved := true }) hCGg r st' h2
            have hfr2 := checkTargets_frame store d lbl ts
              ({ stg with rootResolved := true }) r st' h2
            refine ⟨?_, hck.2, ?_, ?_, ?_, ?_, ?_⟩
            · rw [← hgp.1]
              show some r = pureCheck store st.ids d lbl ts
              rw [← hgfr.2.1]
              exact hck.1
            · exact hfr2.2.1.trans hgfr.2.1
            · exact hfr2.1.trans hgfr.1
            · exact hfr2.2.2.1.trans hgfr.2.2.1
            · exact hfr2.2.2.2.1.trans (hgfr.2.2.2.1.trans hErr)
            · exact Or.inr ⟨hfr2.2.2.2.2.1, rootNode, hgp.1.symm⟩
    · rw [hErr] at h
      cases h
      exact ⟨rfl, hCG, rfl, rfl, rfl, hErr, Or.inl rfl⟩

theorem pureAssert_root_flag (store : Store) (ts : List String)
    (d lbl : String) (en : Bool) (ids sources : List String)
    (err : Option String) (b : Bool)
    (hok : ∃ n, resolvePure store "root" = .ok n) :
    pureAssert store ts d lbl en ids sources err b =
      pureAssert store ts d lbl en ids sources err true := by
  unfold pureAssert
  by_cases hEn : en = false
  · rw [if_pos hEn, if_pos hEn]
  · rw [if_neg hEn, if_neg hEn]
    cases err with
    | some e => rfl
    | none =>
      by_cases hIds : ids.length = 0
      · rw [if_pos hIds, if_pos hIds]
      · rw [if_neg hIds, if_neg hIds, if_pos (Or.inl rfl)]
        by_cases hb : b = true ∨ ¬ "root" ∈ ids
        · rw [if_pos hb]
        · rw [if_neg hb]
          rcases hok with ⟨n, hn⟩
          rw [hn]

/-- Counterexample to claim C7 as stated: on a store where the entry `A`
reports canonical ID `C` while `C` has its own entry with different
parents, the dual-key cache write of the first call overwrites `C`'s
cached node, so a second identical call flips the outcome from accept to
reject. -/
theorem repeat_assertion_counterexample :
    assertOk (assertWriteAccessForFile
      [("T", DriveResp.ok none (some ["C", "A"])),
       ("C", DriveResp.ok none (some ["F1"])),
       ("A", DriveResp.ok (some "C") none),
       ("F1", DriveResp.ok none (some []))] "T" "edit"
      (GateState.mk true ["F1"] [] none false [] [])) = some true ∧
    ((assertState (assertWriteAccessForFile
      [("T", DriveResp.ok none (some ["C", "A"])),
       ("C", DriveResp.ok none (some ["F1"])),
       ("A", DriveResp.ok (some "C") none),
       ("F1", DriveResp.ok none (some []))] "T" "edit"
      (GateState.mk true ["F1"] [] none false [] []))).bind
      (fun st1 => assertOk (assertWriteAccessForFile
        [("T", DriveResp.ok none (some ["C", "A"])),
         ("C", DriveResp.ok none (some ["F1"])),
         ("A", DriveResp.ok (some "C") none),
         ("F1", DriveResp.ok none (some []))] "T" "edit" st1))) = some false := by
  constructor
  · decide
  · decide

/-- Claim C7 (amended): on an alias-free store (every lookup returns the
requested ID as canonical) and from any coherently-cached state, running
the same assertion twice yields the same result, and every remote lookup
of the second run is for an ID absent from the cache the first run left
behind — so IDs successfully resolved by the first run are not fetched
again.  (As stated the claim is false: with canonical-ID aliasing the
dual-key cache write can overwrite another ID's node and flip the second
outcome, see the counterexample; and an ID whose lookup failed is
fetched again, cf. C10.) -/
theorem repeat_assertion_same_outcome (store : Store) (ts : List String)
    (d lbl : String) (st : GateState) (hA : NoAliasStore store)
    (hCG : CacheGood store st.cache) (r1 r2 : Except String Unit)
    (st1 st2 : GateState)
    (h1 : assertWriteAccessInternal store ts d lbl st = some (r1, st1))
    (h2 : assertWriteAccessInternal store ts d lbl st1 = some (r2, st2)) :
    r2 = r1 ∧
    ∀ x ∈ st2.lookups.drop st1.lookups.length, alistGet st1.cache x = none := by
  have hp1 := assertInternal_pure store ts d lbl st hA hCG r1 st1 h1
  have hCG1 : CacheGood store st1.cache := hp1.2.1
  have hp2 := assertInternal_pure store ts d lbl st1 hA hCG1 r2 st2 h2
  constructor
  · have e1 := hp1.1
    have e2 := hp2.1
    rw [hp1.2.2.1, hp1.2.2.2.1, hp1.2.2.2.2.1, hp1.2.2.2.2.2.1] at e2
    rcases hp1.2.2.2.2.2.2 with hsame | ⟨htrue, n, hn⟩
    · rw [hsame] at e2
      exact Option.some_inj.mp (e2.trans e1.symm)
    · rw [htrue] at e2
      rw [pureAssert_root_flag store ts d lbl st.enabled st.ids st.sources
        st.error st.rootResolved ⟨n, hn⟩] at e1
      exact Option.some_inj.mp (e2.trans e1.symm)
  · rcases (assertInternal_frame store ts d lbl st1 r2 st2 h2).2.2.2.2.2 with
      ⟨Δ, hl, hmem⟩
    intro x hx
    rw [hl, List.drop_left] at hx
    exact hmem x hx

/-- Witness for C7's amended theorem on a one-entry alias-free store. -/
theorem repeat_assertion_same_outcome_witness :
    NoAliasStore [("F1", DriveResp.ok none (some []))] ∧
    ((Except.ok () : Except String Unit) = Except.ok () ∧
      ∀ x ∈ (GateState.mk true ["F1"] [] none false [] []).lookups.drop
        (GateState.mk true ["F1"] [] none false [] []).lookups.length,
        alistGet (GateState.mk true ["F1"] [] none false [] []).cache x = none) :=
  ⟨by decide, repeat_assertion_same_outcome [("F1", DriveResp.ok none (some []))]
    ["F1"] "edit" "file" (GateState.mk true ["F1"] [] none false [] [])
    (by decide) (by decide) (.ok ()) (.ok ())
    (GateState.mk true ["F1"] [] none false [] [])
    (GateState.mk true ["F1"] [] none false [] []) (by decide) (by decide)⟩

/-- One ancestor hop: `b` is a direct parent of the node the store
resolves for `a`. -/
def specStep (store : Store) (a b : String) : Prop :=
  ∃ n, resolvePure store a = .ok n ∧ b ∈ n.parents

/-- The claim's acceptance condition: the target is allowlisted itself or
an ancestor chain via parents reaches an allowlisted ID. -/
def ReachesAllowlisted (store : Store) (L : List String) (T : String) : Prop :=
  T ∈ L ∨ ∃ x, Relation.ReflTransGen (specStep store) T x ∧ x ∈ L

/-- Every parent ID the store ever reports is a truthy (non-empty)
string — valid remote IDs. -/
def ParentsNonempty (store : Store) : Prop :=
  ∀ kv ∈ store, ∀ i p, kv.2 = DriveResp.ok i p → ¬ "" ∈ p.getD []

/-- Executable form of `ParentsNonempty`. -/
def parentsNonemptyB (store : Store) : Bool :=
  store.all (fun kv => match kv.2 with
    | DriveResp.ok _ p => ¬ "" ∈ p.getD []
    | _ => true)

theorem parentsNonemptyB_iff (store : Store) :
    parentsNonemptyB store = true ↔ ParentsNonempty store := by
  unfold parentsNonemptyB ParentsNonempty
  rw [List.all_eq_true]
  constructor
  · intro h kv hm i p hip
    have h2 := h kv hm
    rw [hip] at h2
    simpa using h2
  · intro h kv hm
    rcases hkv : kv.2 with ⟨i, p⟩ | _ | m
    · simpa using h kv hm i p hkv
    · rfl
    · rfl

instance (store : Store) : Decidable (ParentsNonempty store) :=
  decidable_of_iff _ (parentsNonemptyB_iff store)

theorem resolve_parents_ne (store : Store) (hpn : ParentsNonempty store)
    (k : String) (n : FileNode) (h : resolvePure store k = .ok n) :
    ¬ "" ∈ n.parents := by
  unfold resolvePure at h
  rcases hs : storeGet store k with _ | resp
  · rw [hs] at h; cases h
  · rcases resp with ⟨i, p⟩ | _ | m
    · rw [hs] at h
      cases h
      exact hpn (k, DriveResp.ok i p) (alistGet_mem store k _ hs) i p rfl
    · rw [hs] at h; cases h
    · rw [hs] at h; cases h

theorem pureBfs_sound (store : Store) (L : List String)
    (hA : NoAliasStore store) :
    ∀ (fuel : Nat) (q seen : List String),
      pureBfsAux store L fuel q seen = some (.ok true) →
      ∃ c ∈ q, ∃ x, Relation.ReflTransGen (specStep store) c x ∧ x ∈ L := by
  intro fuel
  induction fuel with
  | zero =>
    intro q seen h
    match q with
    | [] => simp [pureBfsAux] at h
    | c :: cs => simp [pureBfsAux] at h
  | succ n ih =>
    intro q seen h
    match q with
    | [] => simp [pureBfsAux] at h
    | c :: cs =>
      by_cases h1 : c = "" ∨ c ∈ seen
      · simp only [pureBfsAux, if_pos h1] at h
        rcases ih cs seen h with ⟨c', hc', x, hx, hxL⟩
        exact ⟨c', List.mem_cons_of_mem c hc', x, hx, hxL⟩
      · by_cases h2 : c ∈ L
        · exact ⟨c, List.mem_cons_self c cs, c, Relation.ReflTransGen.refl, h2⟩
        · simp only [pureBfsAux, if_neg h1, if_neg h2] at h
          rcases hres : resolvePure store c with e | node
          · rw [hres] at h
            simp at h
          · rw [hres] at h
            by_cases h3 : node.id ∈ L
            · have hidc : node.id = c := resolvePure_id store c node hA hres
              exact ⟨c, List.mem_cons_self c cs, c, Relation.ReflTransGen.refl,
                hidc ▸ h3⟩
            · simp only [if_neg h3] at h
              rcases ih _ _ h with ⟨c', hc', x, hx, hxL⟩
              rcases List.mem_append.mp hc' with hcq | hcp
              · exact ⟨c', List.mem_cons_of_mem c hcq, x, hx, hxL⟩
              · have hpar : c' ∈ node.parents := List.mem_of_mem_filter hcp
                have hstep : specStep store c c' := ⟨node, hres, hpar⟩
                exact ⟨c, List.mem_cons_self c cs, x,
                  Relation.ReflTransGen.head hstep hx, hxL⟩

theorem seen_closed_no_reach (store : Store) (L : List String) (T : String)
    (seen : List String)
    (hseen : ∀ s ∈ seen, ¬ s ∈ L ∧ Relation.ReflTransGen (specStep store) T s ∧
      ∀ n, resolvePure store s = .ok n →
        ∀ p ∈ n.parents, p ∈ ([] : List String) ∨ p ∈ seen)
    (hT : T ∈ seen) :
    ∀ x, Relation.ReflTransGen (specStep store) T x → ¬ x ∈ L := by
  have hmem : ∀ x, Relation.ReflTransGen (specStep store) T x → x ∈ seen := by
    intro x hx
    induction hx with
    | refl => exact hT
    | tail hTb hstep ihx =>
      rcases hstep with ⟨nb, hnb, hpb⟩
      rcases hseen _ ihx with ⟨_, _, hcl⟩
      rcases hcl nb hnb _ hpb with hc | hc
      · exact absurd hc (List.not_mem_nil _)
      · exact hc
  intro x hx
  exact (hseen x (hmem x hx)).1

theorem pureBfs_exhaustive (store : Store) (L : List String)
    (hpn : ParentsNonempty store) (T : String)
    (hok : ∀ x, Relation.ReflTransGen (specStep store) T x →
      ∃ n, resolvePure store x = .ok n) :
    ∀ (fuel : Nat) (q seen : List String) (r : Except String Bool),
      pureBfsAux store L fuel q seen = some r →
      (∀ x ∈ q, Relation.ReflTransGen (specStep store) T x ∧ ¬ x = "") →
      (∀ s ∈ seen, ¬ s ∈ L ∧ Relation.ReflTransGen (specStep store) T s ∧
        ∀ n, resolvePure store s = .ok n → ∀ p ∈ n.parents, p ∈ q ∨ p ∈ seen) →
      (T ∈ q ∨ T ∈ seen) →
      (∀ e, ¬ r = .error e) ∧
      (r = .ok false →
        ∀ x, Relation.ReflTransGen (specStep store) T x → ¬ x ∈ L) := by
  intro fuel
  induction fuel with
  | zero =>
    intro q seen r h hq hseen hT
    match q with
    | [] =>
      have h2 : some (Except.ok false : Except String Bool) = some r := h
      cases h2
      refine ⟨(fun e he => nomatch he), fun _ => ?_⟩
      have hTs : T ∈ seen := by
        rcases hT with hc | hc
        · exact absurd hc (List.not_mem_nil _)
        · exact hc
      exact seen_closed_no_reach store L T seen hseen hTs
    | c :: cs => simp [pureBfsAux] at h
  | succ n ih =>
    intro q seen r h hq hseen hT
    match q with
    | [] =>
      have h2 : some (Except.ok false : Except String Bool) = some r := h
      cases h2
      refine ⟨(fun e he => nomatch he), fun _ => ?_⟩
      have hTs : T ∈ seen := by
        rcases hT with hc | hc
        · exact absurd hc (List.not_mem_nil _)
        · exact hc
      exact seen_closed_no_reach store L T seen hseen hTs
    | c :: cs =>
      have hcq := hq c (List.mem_cons_self c cs)
      by_cases h1 : c = "" ∨ c ∈ seen
      · have hcs : c ∈ seen := by
          rcases h1 with hc | hc
          · exact absurd hc hcq.2
          · exact hc
        simp only [pureBfsAux, if_pos h1] at h
        apply ih cs seen r h (fun x hx => hq x (List.mem_cons_of_mem c hx))
        · intro s hs
          rcases hseen s hs with ⟨hs1, hs2, hs3⟩
          refine ⟨hs1, hs2, ?_⟩
          intro nn hnn p hp
          rcases hs3 nn hnn p hp with hc | hc
          · rcases List.mem_cons.mp hc with hceq | hc2
            · rw [hceq]; exact Or.inr hcs
            · exact Or.inl hc2
          · exact Or.inr hc
        · rcases hT with hc | hc
          · rcases List.mem_cons.mp hc with hceq | hc2
            · rw [hceq]; exact Or.inr hcs
            · exact Or.inl hc2
          · exact Or.inr hc
      · by_cases h2 : c ∈ L
        · have h3 : r = .ok true := by
            have h4 : some (Except.ok true : Except String Bool) = some r := by
              simpa only [pureBfsAux, if_neg h1, if_pos h2] using h
            cases h4
            rfl
          subst h3
          exact ⟨(fun e he => nomatch he), fun hfalse => nomatch hfalse⟩
        · rcases hok c hcq.1 with ⟨nc, hnc⟩
          simp only [pureBfsAux, if_neg h1, if_neg h2, hnc] at h
          by_cases h3 : nc.id ∈ L
          · have h4 : some (Except.ok true : Except String Bool) = some r := by
              simpa only [if_pos h3] using h
            cases h4
            exact ⟨(fun e he => nomatch he), fun hfalse => nomatch hfalse⟩
          · simp only [if_neg h3] at h
            have hcL : ¬ c ∈ L := h2
            have hcne : ∀ p ∈ nc.parents, ¬ p = "" := by
              intro p hp hpe
              exact resolve_parents_ne store hpn c nc hnc (hpe ▸ hp)
            apply ih _ _ r h
            · intro x hx
              rcases List.mem_append.mp hx with hxq | hxp
              · exact hq x (List.mem_cons_of_mem c hxq)
              · have hpar : x ∈ nc.parents := List.mem_of_mem_filter hxp
                exact ⟨Relation.ReflTransGen.tail hcq.1 ⟨nc, hnc, hpar⟩,
                  hcne x hpar⟩
            · intro s hs
              rcases List.mem_cons.mp hs with hseq | hs2
              · rw [hseq]
                refine ⟨hcL, hcq.1, ?_⟩
                intro nn hnn p hp
                rw [hnc] at hnn
                cases hnn
                by_cases hpseen : p ∈ c :: seen
                · exact Or.inr hpseen
                · refine Or.inl (List.mem_append.mpr (Or.inr ?_))
                  exact List.mem_filter.mpr ⟨hp, by simpa using hpseen⟩
              · rcases hseen s hs2 with ⟨hs1, hsR, hs3⟩
                refine ⟨hs1, hsR, ?_⟩
                intro nn hnn p hp
                rcases hs3 nn hnn p hp with hc | hc
                · rcases List.mem_cons.mp hc with hceq | hc2
                  · rw [hceq]; exact Or.inr (List.mem_cons_self c seen)
                  · exact Or.inl (List.mem_append.mpr (Or.inl hc2))
                · exact Or.inr (List.mem_cons_of_mem c hc)
            · rcases hT with hc | hc
              · rcases List.mem_cons.mp hc with hceq | hc2
                · rw [hceq]; exact Or.inr (List.mem_cons_self c seen)
                · exact Or.inl (List.mem_append.mpr (Or.inl hc2))
              · exact Or.inr (List.mem_cons_of_mem c hc)

/-- Counterexample to claim C1 as stated: with allowlist `{"C"}` and a
store where looking up `"A"` answers canonical ID `"C"` with no parents,
`assertWriteAccessForFile "A"` succeeds although `"A"` is not in the
allowlist and no ancestor chain via parents from `"A"` reaches an
allowlisted ID — acceptance came from the canonical-ID check on the
fetched node, a case the claim's wording does not cover. -/
theorem ancestor_chain_counterexample :
    assertOk (assertWriteAccessForFile [("A", DriveResp.ok (some "C") (some []))]
      "A" "edit" (GateState.mk true ["C"] [] none false [] [])) = some true ∧
    ¬ ReachesAllowlisted [("A", DriveResp.ok (some "C") (some []))] ["C"] "A" := by
  constructor
  · decide
  · intro hre
    rcases hre with hmem | ⟨x, hx, hxL⟩
    · simp at hmem
    · have hxA : x = "A" := by
        rcases Relation.ReflTransGen.cases_head hx with heq | ⟨c, hstep, _⟩
        · exact heq.symm
        · rcases hstep with ⟨n, hn, hp⟩
          have hres : resolvePure [("A", DriveResp.ok (some "C") (some []))] "A" =
              .ok (FileNode.mk "C" []) := rfl
          rw [hres] at hn
          cases hn
          simp at hp
      rw [hxA] at hxL
      simp at hxL

/-- Claim C1 (amended): on an alias-free store whose parent IDs are
truthy, from a fresh process state with the allowlist enabled, valid and
non-empty, and assuming every remote lookup along the traversal succeeds
(every ID reachable from the target resolves, and the root alias
resolves when allowlisted), `assertWriteAccessForFile T` succeeds exactly
when `T` is allowlisted or an ancestor chain via parents reaches an
allowlisted ID.  (As stated the claim is false: with canonical-ID
aliasing a target can also be accepted because a fetched node's
canonical ID is allowlisted, see the counterexample.) -/
theorem ancestor_chain_characterization (store : Store) (st : GateState)
    (T d : String) (hA : NoAliasStore store) (hpn : ParentsNonempty store)
    (hEn : st.enabled = true) (hErr : st.error = none)
    (hNE : ¬ st.ids.length = 0) (hCache : st.cache = [])
    (hFresh : st.rootResolved = false) (hTne : ¬ T = "")
    (hok : ∀ x, Relation.ReflTransGen (specStep store) T x →
      ∃ n, resolvePure store x = .ok n)
    (hroot : "root" ∈ st.ids → ∃ n, resolvePure store "root" = .ok n) :
    assertOk (assertWriteAccessForFile store T d st) = some true ↔
      ReachesAllowlisted store st.ids T := by
  have hCG : CacheGood store st.cache := by
    rw [hCache]
    intro kv hkv
    simp at hkv
  rcases hrun : assertWriteAccessInternal store [T] d "file" st with _ | ⟨r, st'⟩
  · exact absurd hrun (assertWriteAccessInternal_total store [T] d "file" st)
  · have hp := assertInternal_pure store [T] d "file" st hA hCG r st' hrun
    have hpa : some r = pureAssert store [T] d "file" st.enabled st.ids
        st.sources st.error st.rootResolved := hp.1
    rw [hEn, hErr, hFresh] at hpa
    have hpa2 : some r = pureCheck store st.ids d "file" [T] := by
      rw [hpa]
      unfold pureAssert
      rw [if_neg (by simp), if_neg hNE]
      by_cases hrm : "root" ∈ st.ids
      · rw [if_neg (by simp [hrm])]
        rcases hroot hrm with ⟨n, hn⟩
        rw [hn]
      · rw [if_pos (Or.inr hrm)]
    have hq0 : ∀ x ∈ [T], Relation.ReflTransGen (specStep store) T x ∧ ¬ x = "" := by
      intro x hx
      rcases List.mem_singleton.mp hx with rfl
      exact ⟨Relation.ReflTransGen.refl, hTne⟩
    have hseen0 : ∀ s ∈ ([] : List String), ¬ s ∈ st.ids ∧
        Relation.ReflTransGen (specStep store) T s ∧
        ∀ n, resolvePure store s = .ok n →
          ∀ p ∈ n.parents, p ∈ [T] ∨ p ∈ ([] : List String) := by
      intro s hs
      simp at hs
    rcases hpw : pureWithin store st.ids T with _ | r0
    · simp only [pureCheck] at hpa2
      rw [hpw] at hpa2
      cases hpa2
    · have hexh := pureBfs_exhaustive store st.ids hpn T hok
        (suffFuel store [] [T]) [T] [] r0 hpw hq0 hseen0
        (Or.inl (List.mem_singleton.mpr rfl))
      rcases r0 with e | b
      · exact absurd rfl (hexh.1 e)
      · cases b
        · have hr : r = .error (blockedMsg d "file" T) := by
            simp only [pureCheck] at hpa2
            rw [hpw] at hpa2
            exact Option.some_inj.mp hpa2
          subst hr
          have hnone := hexh.2 rfl
          have hfalse : assertOk (assertWriteAccessForFile store T d st) =
              some false := by
            unfold assertWriteAccessForFile
            rw [hrun]
            rfl
          constructor
          · intro hcontra
            rw [hfalse] at hcontra
            cases hcontra
          · intro hre
            exfalso
            rcases hre with hmem | ⟨x, hx, hxL⟩
            · exact hnone T Relation.ReflTransGen.refl hmem
            · exact hnone x hx hxL
        · have hr : r = .ok () := by
            simp only [pureCheck] at hpa2
            rw [hpw] at hpa2
            exact Option.some_inj.mp hpa2
          subst hr
          have htrue : assertOk (assertWriteAccessForFile store T d st) =
              some true := by
            unfold assertWriteAccessForFile
            rw [hrun]
            rfl
          rcases pureBfs_sound store st.ids hA (suffFuel store [] [T]) [T] [] hpw
            with ⟨c, hc, x, hx, hxL⟩
          rcases List.mem_singleton.mp hc with rfl
          constructor
          · intro _
            exact Or.inr ⟨x, hx, hxL⟩
          · intro _
            exact htrue

/-- Witness for C1's amended theorem: a one-node store whose single file
is allowlisted. -/
theorem ancestor_chain_characterization_witness :
    NoAliasStore [("T1", DriveResp.ok none (some []))] ∧
    (assertOk (assertWriteAccessForFile [("T1", DriveResp.ok none (some []))]
      "T1" "edit" (GateState.mk true ["T1"] [] none false [] [])) = some true ↔
      ReachesAllowlisted [("T1", DriveResp.ok none (some []))] ["T1"] "T1") := by
  have hstep : ∀ x, Relation.ReflTransGen
      (specStep [("T1", DriveResp.ok none (some []))]) "T1" x → x = "T1" := by
    intro x hx
    rcases Relation.ReflTransGen.cases_head hx with heq | ⟨c, hstep, _⟩
    · exact heq.symm
    · rcases hstep with ⟨n, hn, hp⟩
      have hres : resolvePure [("T1", DriveResp.ok none (some []))] "T1" =
          .ok (FileNode.mk "T1" []) := rfl
      rw [hres] at hn
      cases hn
      simp at hp
  refine ⟨by decide, ?_⟩
  exact ancestor_chain_characterization [("T1", DriveResp.ok none (some []))]
    (GateState.mk true ["T1"] [] none false [] []) "T1" "edit"
    (by decide) (by decide) rfl rfl (by decide) rfl rfl (by decide)
    (fun x hx => by
      rw [hstep x hx]
      exact ⟨FileNode.mk "T1" [], rfl⟩)
    (fun hcontra => absurd hcontra (by decide))

theorem dropWhile_idem {α : Type} (p : α → Bool) (l : List α) :
    (l.dropWhile p).dropWhile p = l.dropWhile p := by
  induction l with
  | nil => rfl
  | cons x xs ih =>
    rw [List.dropWhile_cons]
    by_cases hx : p x = true
    · rw [if_pos hx]
      exact ih
    · rw [if_neg hx, List.dropWhile_cons, if_neg hx]

theorem dropWhile_length_le {α : Type} (p : α → Bool) (l : List α) :
    (l.dropWhile p).length ≤ l.length := by
  induction l with
  | nil => exact Nat.le_refl _
  | cons x xs ih =>
    rw [List.dropWhile_cons]
    by_cases hx : p x = true
    · rw [if_pos hx]
      exact Nat.le_succ_of_le ih
    · rw [if_neg hx]

theorem dropWhile_head_not {α : Type} (p : α → Bool) (a : α) (t : List α)
    (h : (a :: t).dropWhile p = a :: t) : ¬ p a = true := by
  intro hp
  rw [List.dropWhile_cons, if_pos hp] at h
  have hle := dropWhile_length_le p t
  rw [h] at hle
  simp at hle

theorem dropWhile_prefix_fixed {α : Type} (p : α → Bool) (m t : List α)
    (hm : m.dropWhile p = m) (hpre : t <+: m) : t.dropWhile p = t := by
  cases t with
  | nil => rfl
  | cons a s =>
    rcases hpre with ⟨u, hu⟩
    have hm2 : (a :: (s ++ u)).dropWhile p = a :: (s ++ u) := by
      rw [show a :: (s ++ u) = m from by rw [← hu]; rfl]
      exact hm
    have hna := dropWhile_head_not p a (s ++ u) hm2
    rw [List.dropWhile_cons, if_neg hna]

theorem trimChars_idem (l : List Char) :
    trimChars (trimChars l) = trimChars l := by
  unfold trimChars
  have hm_idem : (l.dropWhile isJsWs).dropWhile isJsWs = l.dropWhile isJsWs :=
    dropWhile_idem isJsWs l
  have hsuf : (l.dropWhile isJsWs).reverse.dropWhile isJsWs <:+
      (l.dropWhile isJsWs).reverse := List.dropWhile_suffix isJsWs
  have hpre0 := List.reverse_prefix.mpr hsuf
  rw [List.reverse_reverse] at hpre0
  have hstep := dropWhile_prefix_fixed isJsWs (l.dropWhile isJsWs)
    ((l.dropWhile isJsWs).reverse.dropWhile isJsWs).reverse hm_idem hpre0
  rw [hstep, List.reverse_reverse, dropWhile_idem]

theorem jsTrim_idem (s : String) : jsTrim (jsTrim s) = jsTrim s := by
  show String.mk (trimChars (String.mk (trimChars s.data)).data) = _
  rw [show (String.mk (trimChars s.data)).data = trimChars s.data from rfl,
    trimChars_idem]
  rfl

theorem parse_plain (jsonEval : String → Except String Json) (v : String)
    (hns : ¬ (jsStartsWith (jsTrim v) "\x7b" = true ∨
      jsStartsWith (jsTrim v) "[" = true)) :
    parseAllowlistInput jsonEval v = .ok (splitList (jsTrim v)) := by
  unfold parseAllowlistInput
  by_cases he : jsTrim v = ""
  · rw [if_pos he, he]
    rfl
  · rw [if_neg he, if_neg (by simpa using hns)]

theorem splitList_mem (s : String) (x : String) (hx : x ∈ splitList s) :
    jsTrim x = x ∧ 0 < x.length := by
  unfold splitList at hx
  have h1 := List.mem_filter.mp hx
  refine ⟨?_, by simpa using h1.2⟩
  rcases List.mem_map.mp h1.1 with ⟨l, _, hl⟩
  rw [← hl]
  exact jsTrim_idem (String.mk l)

theorem map_id_of_mem {α : Type} (f : α → α) :
    ∀ l : List α, (∀ x ∈ l, f x = x) → l.map f = l := by
  intro l
  induction l with
  | nil => intro h; rfl
  | cons x xs ih =>
    intro h
    rw [List.map_cons, h x (List.mem_cons_self x xs),
      ih (fun y hy => h y (List.mem_cons_of_mem x hy))]

/-- Claim C8: plain-text allowlist inputs (after trimming, not starting
with `{` or `[`) are parsed by splitting on newlines and commas, trimming
every piece, dropping the empty pieces, and de-duplicating the collected
IDs across both configuration sources (`splitList` is exactly the
split-trim-drop pipeline, and the final ID set is the first-occurrence
de-duplication of the two sources' pieces concatenated); in particular
the inline input `"F1, F2\nF3"` yields exactly `{"F1", "F2", "F3"}`. -/
theorem plain_text_parsing :
    (∀ (jsonEval : String → Except String Json)
      (readFile : String → Except String String) (v w path : String),
      ¬ (jsStartsWith (jsTrim v) "\x7b" = true ∨
        jsStartsWith (jsTrim v) "[" = true) →
      ¬ (jsStartsWith (jsTrim w) "\x7b" = true ∨
        jsStartsWith (jsTrim w) "[" = true) →
      readFile path = .ok w →
      (loadAllowlistState jsonEval readFile (some v) (some path)).ids =
        dedupFirst (splitList (jsTrim v) ++ splitList (jsTrim w))) ∧
    (∀ (jsonEval : String → Except String Json)
      (readFile : String → Except String String),
      (loadAllowlistState jsonEval readFile (some "F1, F2\nF3") none).ids =
        ["F1", "F2", "F3"]) := by
  constructor
  · intro jsonEval readFile v w path hv hw hrf
    have h1 := parse_plain jsonEval v hv
    have h2 := parse_plain jsonEval w hw
    have hv1 : parsedInline jsonEval v = (splitList (jsTrim v), []) := by
      unfold parsedInline
      rw [h1]
    have hp1 : parsedFile jsonEval readFile path = (splitList (jsTrim w), []) := by
      unfold parsedFile
      rw [hrf]
      show (match parseAllowlistInput jsonEval w with
        | Except.ok l => (l, ([] : List String))
        | Except.error e => ([], ["Failed to read " ++ path ++ ": " ++ e])) =
        (splitList (jsTrim w), [])
      rw [h2]
    have hload : (loadAllowlistState jsonEval readFile (some v) (some path)).ids =
        dedupFirst ((((parsedInline jsonEval v).1 ++
          (parsedFile jsonEval readFile path).1).map jsTrim).filter
          (fun i => 0 < i.length)) := rfl
    rw [hload, hv1, hp1]
    show dedupFirst (((splitList (jsTrim v) ++ splitList (jsTrim w)).map
      jsTrim).filter (fun i => 0 < i.length)) = _
    have hmem : ∀ x ∈ splitList (jsTrim v) ++ splitList (jsTrim w),
        jsTrim x = x ∧ 0 < x.length := by
      intro x hx
      rcases List.mem_append.mp hx with h | h
      · exact splitList_mem _ x h
      · exact splitList_mem _ x h
    rw [map_id_of_mem jsTrim _ (fun x hx => (hmem x hx).1),
      List.filter_eq_self.mpr (fun x hx => by simpa using (hmem x hx).2)]
  · intro jsonEval readFile
    rfl

/-- Witness for C8 at the scenario input plus a plain-text file source. -/
theorem plain_text_parsing_witness :
    ¬ (jsStartsWith (jsTrim "F1, F2\nF3") "\x7b" = true ∨
      jsStartsWith (jsTrim "F1, F2\nF3") "[" = true) ∧
    (loadAllowlistState (fun _ => .error "no json") (fun _ => .ok " F2,G1 ")
      (some "F1, F2\nF3") (some "ids.txt")).ids =
      dedupFirst (splitList (jsTrim "F1, F2\nF3") ++ splitList (jsTrim " F2,G1 ")) ∧
    (loadAllowlistState (fun _ => .error "no json") (fun _ => .ok " F2,G1 ")
      (some "F1, F2\nF3") (some "ids.txt")).ids = ["F1", "F2", "F3", "G1"] :=
  ⟨by decide,
   plain_text_parsing.1 (fun _ => .error "no json") (fun _ => .ok " F2,G1 ")
     "F1, F2\nF3" " F2,G1 " "ids.txt" (by decide) (by decide) rfl,
   by decide⟩

/-- Claim C2: with neither configuration source set the allowlist is
disabled, and every assertion call — file, parent (also absent), parents
(also absent or empty) — succeeds for every target and leaves the state
untouched, so in particular it issues no remote lookup. -/
theorem disabled_allows_everything (store : Store) (st : GateState)
    (fileId d1 d2 d3 : String) (parentId : Option String)
    (parentIds : Option (List String)) (h : st.enabled = false) :
    assertWriteAccessForFile store fileId d1 st = some (.ok (), st) ∧
    assertWriteAccessForParent store parentId d2 st = some (.ok (), st) ∧
    assertWriteAccessForParents store parentIds d3 st = some (.ok (), st) := by
  refine ⟨?_, ?_, ?_⟩ <;>
    simp [assertWriteAccessForFile, assertWriteAccessForParent,
      assertWriteAccessForParents, assertWriteAccessInternal, h]

/-- Witness for C2 at a concrete disabled state and a nonexistent target. -/
theorem disabled_allows_everything_witness :
    (GateState.mk false [] [] none false [] []).enabled = false ∧
    assertWriteAccessForFile [] "no-such-id" "create doc"
      (GateState.mk false [] [] none false [] []) =
      some (.ok (), GateState.mk false [] [] none false [] []) :=
  ⟨rfl, (disabled_allows_everything [] (GateState.mk false [] [] none false [] [])
    "no-such-id" "create doc" "d" "d" none none rfl).1⟩

/-- Claim C3: with the allowlist enabled, no configuration error and an
empty resolved ID set, every assertion call rejects with the
enabled-but-empty message for every target — even a target the remote
store knows — and leaves the state untouched (no remote lookup). -/
theorem empty_allowlist_blocks_everything (store : Store) (st : GateState)
    (fileId d1 d2 d3 : String) (parentId : Option String)
    (parentIds : Option (List String)) (hEn : st.enabled = true)
    (hErr : st.error = none) (hIds : st.ids = []) :
    assertWriteAccessForFile store fileId d1 st =
      some (.error (emptyAllowlistMsg st.sources), st) ∧
    assertWriteAccessForParent store parentId d2 st =
      some (.error (emptyAllowlistMsg st.sources), st) ∧
    assertWriteAccessForParents store parentIds d3 st =
      some (.error (emptyAllowlistMsg st.sources), st) := by
  refine ⟨?_, ?_, ?_⟩ <;>
    simp [assertWriteAccessForFile, assertWriteAccessForParent,
      assertWriteAccessForParents, assertWriteAccessInternal, hEn, hErr, hIds]

/-- Witness for C3: the target `"K"` exists in the store, yet the empty
allowlist rejects it without looking it up. -/
theorem empty_allowlist_blocks_everything_witness :
    (GateState.mk true [] ["env:GOOGLE_DRIVE_WRITE_ALLOWLIST"] none false [] []).enabled = true ∧
    assertWriteAccessForFile [("K", .ok none (some []))] "K" "update doc"
      (GateState.mk true [] ["env:GOOGLE_DRIVE_WRITE_ALLOWLIST"] none false [] []) =
      some (.error (emptyAllowlistMsg ["env:GOOGLE_DRIVE_WRITE_ALLOWLIST"]),
        GateState.mk true [] ["env:GOOGLE_DRIVE_WRITE_ALLOWLIST"] none false [] []) :=
  ⟨rfl, (empty_allowlist_blocks_everything [("K", .ok none (some []))]
    (GateState.mk true [] ["env:GOOGLE_DRIVE_WRITE_ALLOWLIST"] none false [] [])
    "K" "update doc" "d" "d" none none rfl rfl rfl).1⟩

/-- Claim C4: with the allowlist enabled and a configuration error
recorded, every assertion call rejects with the configuration-error
message, whatever the ID set and the target, and leaves the state
untouched (no remote lookup); the error takes precedence over the
target. -/
theorem config_error_blocks_everything (store : Store) (st : GateState)
    (e fileId d1 d2 d3 : String) (parentId : Option String)
    (parentIds : Option (List String)) (hEn : st.enabled = true)
    (hErr : st.error = some e) :
    assertWriteAccessForFile store fileId d1 st =
      some (.error (configErrorMsg st.sources e), st) ∧
    assertWriteAccessForParent store parentId d2 st =
      some (.error (configErrorMsg st.sources e), st) ∧
    assertWriteAccessForParents store parentIds d3 st =
      some (.error (configErrorMsg st.sources e), st) := by
  refine ⟨?_, ?_, ?_⟩ <;>
    simp [assertWriteAccessForFile, assertWriteAccessForParent,
      assertWriteAccessForParents, assertWriteAccessInternal, hEn, hErr]

/-- Witness for C4: the ID set even contains the target, yet the recorded
configuration error blocks the write. -/
theorem config_error_blocks_everything_witness :
    (GateState.mk true ["K"] ["env:GOOGLE_DRIVE_WRITE_ALLOWLIST"] (some "bad json") false [] []).error
      = some "bad json" ∧
    assertWriteAccessForFile [] "K" "update doc"
      (GateState.mk true ["K"] ["env:GOOGLE_DRIVE_WRITE_ALLOWLIST"] (some "bad json") false [] []) =
      some (.error (configErrorMsg ["env:GOOGLE_DRIVE_WRITE_ALLOWLIST"] "bad json"),
        GateState.mk true ["K"] ["env:GOOGLE_DRIVE_WRITE_ALLOWLIST"] (some "bad json") false [] []) :=
  ⟨rfl, (config_error_blocks_everything []
    (GateState.mk true ["K"] ["env:GOOGLE_DRIVE_WRITE_ALLOWLIST"] (some "bad json") false [] [])
    "bad json" "K" "update doc" "d" "d" none none rfl rfl).1⟩

end WriteAccess
